import Mathlib

/-!
Shallow embedding of `src/lib/parse-bullets.ts` (the "Bullet Time Resolver").

Strings are `List Char`; JS numbers are modelled exactly: integer clock
values as `Int`/`Nat`, the interpolation arithmetic as `ℚ` with
`Math.floor = Int.floor` and `Math.round x = ⌊x + 1/2⌋`.  Absolute
timestamps (`Date` anchored to the entry's day via `setHours`) are modelled
as minutes from the entry-day midnight, so `new Date(d).setHours(h, m, 0, 0)`
is `h * 60 + m` and `+ 60 * 60 * 1000` ms is `+ 60` minutes; the calendar
date parameter cancels out of every claim and is dropped.

The four regular expressions of the source are hand-compiled to structural
matchers that reproduce the JS engine's leftmost-match, greedy-with-
backtracking behaviour (noted inline where a greedy-only parser is
provably equivalent because every backtracking alternative fails).
-/

namespace JournalApp

-- The Batteries rational operations are `@[irreducible]`; reset them so
-- that concrete runs of the interpolation engine can be evaluated by
-- `decide`/`rfl` (the kernel semantics are unchanged).
attribute [local semireducible] Rat.mul Rat.add Rat.inv Rat.sub

/-- JS `\s` (the whitespace class) restricted to the characters that can
occur in a bucket line; `•` etc. are not whitespace. -/
def jsSpace (c : Char) : Bool :=
  c = ' ' || c = '\t' || c = '\n' || c = '\r' || c = '\x0b' || c = '\x0c'

/-- JS `\w`, the word-character class `[A-Za-z0-9_]` used by `\b`. -/
def isWordChar (c : Char) : Bool :=
  c.isAlpha || c.isDigit || c = '_'

/-- Numeric value of a digit character. -/
def dval (c : Char) : Nat := c.toNat - '0'.toNat

/-- Value of a digit string, most significant first. -/
def digitsVal : List Char → Nat
  | [] => 0
  | c :: r => dval c * 10 ^ r.length + digitsVal r

/-- Greedy `\d{1,2}`: one or two leading digits, returned together with the
rest of the input. -/
def readDigits12 : List Char → Option (List Char × List Char)
  | [] => none
  | [a] => if a.isDigit then some ([a], []) else none
  | a :: b :: r =>
    if a.isDigit then
      if b.isDigit then some ([a, b], r) else some ([a], b :: r)
    else none

/-- The optional minutes group `(?::(\d{2}))?`: consumed only when a colon
and two digits are present, otherwise the input is left untouched. -/
def readColonMM (cs : List Char) : Option (List Char) × List Char :=
  match cs with
  | ':' :: a :: b :: r =>
    if a.isDigit && b.isDigit then (some [':', a, b], r) else (none, cs)
  | _ => (none, cs)

/-- Chars of an optional group match. -/
def optChars : Option (List Char) → List Char
  | some l => l
  | none => []

/-- Minutes value of an optional `:MM` group (0 when absent). -/
def mmValOf : Option (List Char) → Nat
  | some (_ :: a :: b :: _) => 10 * dval a + dval b
  | _ => 0

/-- `(am|pm)` case-insensitively: returns (isPM, matched chars, rest). -/
def readMer (cs : List Char) : Option (Bool × List Char × List Char) :=
  match cs with
  | a :: b :: r =>
    if b.toLower = 'm' then
      if a.toLower = 'a' then some (false, [a, b], r)
      else if a.toLower = 'p' then some (true, [a, b], r)
      else none
    else none
  | _ => none

/-- 24-hour clock value. -/
structure TimeOfDay where
  hours : Int
  minutes : Int
deriving DecidableEq, Repr

/-- First branch of `parseTimeString`: the anchored `^(\d{1,2}):(\d{2})$`
with the `0 ≤ h ≤ 23`, `0 ≤ m ≤ 59` bound checks.  (Backtracking `\d{1,2}`
to one digit always fails, as the next required char would be a digit,
never `:`, so the greedy parse is exact.) -/
def parse24 (cs : List Char) : Option TimeOfDay :=
  match readDigits12 cs with
  | some (ds, r) =>
    match readColonMM r with
    | (some mm, rest) =>
      if rest.isEmpty then
        let h := digitsVal ds
        let m := mmValOf (some mm)
        if h ≤ 23 && m ≤ 59 then some ⟨(h : Int), (m : Int)⟩ else none
      else none
    | (none, _) => none
  | none => none

/-- 12-hour mapping of the source: pm maps 12→12 else +12, am maps 12→0. -/
def map12 (h m : Nat) (isPM : Bool) : TimeOfDay :=
  if isPM ∧ h ≠ 12 then ⟨(h : Int) + 12, (m : Int)⟩
  else if ¬isPM ∧ h = 12 then ⟨0, (m : Int)⟩
  else ⟨(h : Int), (m : Int)⟩

/-- Second branch of `parseTimeString`: the anchored
`^(\d{1,2})(?::(\d{2}))?\s*(am|pm)$/i` with the `1 ≤ h ≤ 12`,
`0 ≤ m ≤ 59` checks and the am/pm mapping.  (Backtracking out of the
optional minutes group or to a single digit always fails — the exposed
char is a digit or `:`, never whitespace or `a/p` — so greedy is exact.) -/
def parse12 (cs : List Char) : Option TimeOfDay :=
  match readDigits12 cs with
  | some (ds, r1) =>
    let p := readColonMM r1
    let r3 := p.2.dropWhile jsSpace
    match readMer r3 with
    | some (isPM, _, r4) =>
      if r4.isEmpty then
        let h := digitsVal ds
        let m := mmValOf p.1
        if 1 ≤ h && h ≤ 12 && m ≤ 59 then some (map12 h m isPM) else none
      else none
    | none => none
  | none => none

/-- `parseTimeString`: 24-hour format first, then 12-hour, else no match. -/
def parseTimeString (cs : List Char) : Option TimeOfDay :=
  match parse24 cs with
  | some t => some t
  | none => parse12 cs

/-- JS `String.prototype.trim`. -/
def trim (cs : List Char) : List Char :=
  ((cs.dropWhile jsSpace).reverse.dropWhile jsSpace).reverse

/-- The trailing `\s*[-–:]?\s*` separator of the four time-lead patterns. -/
def sepOpt (cs : List Char) : List Char :=
  let r := cs.dropWhile jsSpace
  match r with
  | c :: rest =>
    if c = '-' || c = '–' || c = ':' then rest.dropWhile jsSpace else r
  | [] => []

/-- Result triple of the time-lead extractor:
`(startTime, endTime, remaining text)`. -/
abbrev PfxResult := Option TimeOfDay × Option TimeOfDay × List Char

/-- Pattern 1, shared-meridiem range
`^(\d{1,2}(?::\d{2})?)\s*-\s*(\d{1,2}(?::\d{2})?)\s*(am|pm)\s*[-–:]?\s*(.*)$/i`;
both bounds are parsed with the shared trailing meridiem appended. -/
def pat1 (t : List Char) : Option PfxResult :=
  match readDigits12 t with
  | some (d1, r1) =>
    let p1 := readColonMM r1
    match p1.2.dropWhile jsSpace with
    | '-' :: r4 =>
      match readDigits12 (r4.dropWhile jsSpace) with
      | some (d2, r6) =>
        let p2 := readColonMM r6
        match readMer (p2.2.dropWhile jsSpace) with
        | some (_, mer, r9) =>
          some (parseTimeString (d1 ++ optChars p1.1 ++ mer),
                parseTimeString (d2 ++ optChars p2.1 ++ mer),
                sepOpt r9)
        | none => none
      | none => none
    | _ => none
  | none => none

/-- Pattern 2, full range
`^(\d{1,2}(?::\d{2})?\s*(?:am|pm))\s*[-–]\s*(\d{1,2}(?::\d{2})?\s*(?:am|pm))\s*[-–:]?\s*(.*)$/i`;
each bound carries its own meridiem (inner whitespace is stripped before
`parseTimeString`, hence dropped from the token here). -/
def pat2 (t : List Char) : Option PfxResult :=
  match readDigits12 t with
  | some (d1, r1) =>
    let p1 := readColonMM r1
    match readMer (p1.2.dropWhile jsSpace) with
    | some (_, mer1, r4) =>
      match r4.dropWhile jsSpace with
      | c :: r6 =>
        if c = '-' || c = '–' then
          match readDigits12 (r6.dropWhile jsSpace) with
          | some (d2, r8) =>
            let p2 := readColonMM r8
            match readMer (p2.2.dropWhile jsSpace) with
            | some (_, mer2, r11) =>
              some (parseTimeString (d1 ++ optChars p1.1 ++ mer1),
                    parseTimeString (d2 ++ optChars p2.1 ++ mer2),
                    sepOpt r11)
            | none => none
          | none => none
        else none
      | [] => none
    | none => none
  | none => none

/-- Pattern 3, single 12-hour time
`^(\d{1,2}(?::\d{2})?\s*(?:am|pm))\s*[-–:]?\s*(.*)$/i`. -/
def pat3 (t : List Char) : Option PfxResult :=
  match readDigits12 t with
  | some (d1, r1) =>
    let p1 := readColonMM r1
    match readMer (p1.2.dropWhile jsSpace) with
    | some (_, mer, r4) =>
      some (parseTimeString (d1 ++ optChars p1.1 ++ mer), none, sepOpt r4)
    | none => none
  | none => none

/-- Pattern 4, single 24-hour time `^(\d{1,2}:\d{2})\s*[-–:]?\s*(.*)$`. -/
def pat4 (t : List Char) : Option PfxResult :=
  match readDigits12 t with
  | some (d1, r1) =>
    match r1 with
    | ':' :: a :: b :: r2 =>
      if a.isDigit && b.isDigit then
        some (parseTimeString (d1 ++ [':', a, b]), none, sepOpt r2)
      else none
    | _ => none
  | none => none

/-- `extractTimePrefix` of the source: trim, then try the four anchored
patterns in order; no match returns `(null, null, wholeLine)`. -/
def extractTimePfx (cs : List Char) : PfxResult :=
  let t := trim cs
  match pat1 t with
  | some r => r
  | none =>
    match pat2 t with
    | some r => r
    | none =>
      match pat3 t with
      | some r => r
      | none =>
        match pat4 t with
        | some r => r
        | none => (none, none, t)

/-- One attempt of the unanchored explicit search
`(\d{1,2})(?::(\d{2}))?\s*(am|pm)/i` at the current position, returning the
matched token with its whitespace removed (the source applies
`.replace(/\s/g, '')` before `parseTimeString`).  Backtracking never
helps here (the exposed char after fewer digits is a digit), so greedy
is exact. -/
def tryExplicitAt (cs : List Char) : Option (List Char) :=
  match readDigits12 cs with
  | some (ds, r1) =>
    let p := readColonMM r1
    match readMer (p.2.dropWhile jsSpace) with
    | some (_, mer, _) => some (ds ++ optChars p.1 ++ mer)
    | none => none
  | none => none

/-- Leftmost match of the explicit-meridiem search: try each start
position left to right. -/
def explicitFind : List Char → Option (List Char)
  | [] => none
  | c :: rest =>
    match tryExplicitAt (c :: rest) with
    | some tok => some tok
    | none => explicitFind rest

/-- The trailing context check of the bare-time regex: the negative
lookahead `(?!\/\d)` and the closing `\b` (the match always ends in a
digit, so the boundary holds iff the next char is not a word char). -/
def bareOK (after : List Char) : Bool :=
  (match after with
   | '/' :: d :: _ => !d.isDigit
   | _ => true) &&
  (match after with
   | [] => true
   | c :: _ => !isWordChar c)

/-- One attempt of `\b(\d{1,2})(?::(\d{2}))?(?!\/\d)\b` at a position whose
opening boundary already holds, in the engine's backtracking order:
two digits with minutes, two digits without, one digit with minutes, one
digit without.  When two digits are available the one-digit alternatives
are statically dead: the exposed next char is the second digit, which is
neither `:` (for the minutes group) nor a non-word char (for `\b`). -/
def bareTryAt (cs : List Char) : Option (Nat × Nat × List Char) :=
  match cs with
  | a :: b :: r =>
    if a.isDigit then
      if b.isDigit then
        let h2 := 10 * dval a + dval b
        match r with
        | ':' :: x :: y :: r2 =>
          if x.isDigit && y.isDigit && bareOK r2 then
            some (h2, 10 * dval x + dval y, r2)
          else if bareOK r then some (h2, 0, r) else none
        | _ => if bareOK r then some (h2, 0, r) else none
      else
        let h1 := dval a
        match b, r with
        | ':', x :: y :: r2 =>
          if x.isDigit && y.isDigit && bareOK r2 then
            some (h1, 10 * dval x + dval y, r2)
          else if bareOK (b :: r) then some (h1, 0, b :: r) else none
        | _, _ => if bareOK (b :: r) then some (h1, 0, b :: r) else none
    else none
  | [a] => if a.isDigit && bareOK [] then some (dval a, 0, []) else none
  | [] => none

/-- Leftmost match of the bare-time search; `prevWord` tracks whether the
char before the current position is a word char (for the opening `\b`). -/
def bareFind : Bool → List Char → Option (Nat × Nat × List Char)
  | _, [] => none
  | prevWord, c :: rest =>
    match (if !prevWord && c.isDigit then bareTryAt (c :: rest) else none) with
    | some v => some v
    | none => bareFind (isWordChar c) rest

/-- The three daily buckets (`section` in the source). -/
inductive Bucket where
  | morning
  | afternoon
  | night
deriving DecidableEq, Repr

/-- `SECTION_RANGES`: morning 6–12, afternoon 12–18, night 18–23. -/
def SECTION_RANGES : Bucket → Int × Int
  | .morning => (6, 12)
  | .afternoon => (12, 18)
  | .night => (18, 23)

/-- `extractTimeFromText`: explicit meridiem token anywhere in the text
first (its parse is returned directly, even when `null`); otherwise the
first bare numeric token, with am/pm inferred from the bucket. -/
def extractTimeFromText (cs : List Char) (sec : Bucket) : Option TimeOfDay :=
  match explicitFind cs with
  | some tok => parseTimeString tok
  | none =>
    match bareFind false cs with
    | some (h, m, _) =>
      if 1 ≤ h && h ≤ 12 && m ≤ 59 then
        let isPM : Bool := match sec with
          | .afternoon => true
          | .night => true
          | .morning => false
        some (map12 h m isPM)
      else none
    | none => none

/-- One bullet record (`ParsedBullet` in the source); `estimatedTimeRange`
is in minutes from the entry-day midnight. -/
structure ParsedBullet where
  text : List Char
  rawText : List Char
  timeStart : Option TimeOfDay
  timeEnd : Option TimeOfDay
  estimatedTimeRange : Int × Int
  bucket : Bucket
  index : Nat
deriving DecidableEq, Repr

/-- Total minutes of a clock value (`setHours(h, m, 0, 0)`). -/
def timeMinutes (t : TimeOfDay) : Int := t.hours * 60 + t.minutes

/-- The bullet-glyph strip `line.replace(/^[\s]*[-•*]\s*/, '')`: the
replacement happens only when a marker char is present after the leading
whitespace; otherwise the line is unchanged. -/
def stripBullet (cs : List Char) : List Char :=
  match cs.dropWhile jsSpace with
  | c :: rest =>
    if c = '-' || c = '•' || c = '*' then rest.dropWhile jsSpace else cs
  | [] => cs

/-- `text.split('\n')` (JS semantics: a trailing newline yields a final
empty piece, the empty string yields one empty piece). -/
def splitLines : List Char → List (List Char)
  | [] => [[]]
  | c :: rest =>
    match splitLines rest with
    | [] => [[c]]
    | h :: tl => if c = '\n' then [] :: h :: tl else (c :: h) :: tl

/-- The provisional estimated window of `parseSection`: a resolved time
gives `[t, t + 60min]`; otherwise
`setHours(⌊mid⌋, (mid % 1) * 60)` with `mid = (start + end) / 2`
(integer division is `Math.floor` here, the bucket sums being positive),
again one hour wide. -/
def provisionalWindow (sec : Bucket) (extracted : Option TimeOfDay) : Int × Int :=
  match extracted with
  | some t => (timeMinutes t, timeMinutes t + 60)
  | none =>
    let sum := (SECTION_RANGES sec).1 + (SECTION_RANGES sec).2
    let fl := sum / 2
    (fl * 60 + (30 * sum - 60 * fl), fl * 60 + (30 * sum - 60 * fl) + 60)

/-- The resolved time of one line: the time-lead extractor's start time
when it matched, otherwise the embedded extractor on the whole cleaned
line. -/
def mkExtracted (cleaned : List Char) (sec : Bucket) : Option TimeOfDay :=
  match (extractTimePfx cleaned).1 with
  | some t => some t
  | none => extractTimeFromText cleaned sec

/-- Build one record from a line (the body of the `lines.forEach`):
clean the line, run the time-lead extractor, fall back to the embedded
extractor, and compute the provisional estimated window.  Returns `none`
when the cleaned line is empty. -/
def mkBullet (line : List Char) (sec : Bucket) (idx : Nat) : Option ParsedBullet :=
  let cleaned := trim (stripBullet line)
  if cleaned.isEmpty then none
  else
    let r := extractTimePfx cleaned
    some { text := if r.2.2.isEmpty then cleaned else r.2.2,
           rawText := cleaned,
           timeStart := mkExtracted cleaned sec,
           timeEnd := r.2.1,
           estimatedTimeRange := provisionalWindow sec (mkExtracted cleaned sec),
           bucket := sec,
           index := idx }

/-- The per-line loop of `parseSection`: the running index counts only the
lines that produced a record. -/
def buildBullets : List (List Char) → Bucket → Nat → List ParsedBullet
  | [], _, _ => []
  | l :: ls, sec, idx =>
    match mkBullet l sec idx with
    | some b => b :: buildBullets ls sec (idx + 1)
    | none => buildBullets ls sec idx

/-- Anchor hour value `timeStart.hours + timeStart.minutes / 60`. -/
def anchorHours (t : TimeOfDay) : ℚ := (t.hours : ℚ) + (t.minutes : ℚ) / 60

/-- The anchor scan of `interpolateTimes`: position and fractional hours
of every record with a resolved `timeStart`. -/
def anchorsFrom : Nat → List ParsedBullet → List (Nat × ℚ)
  | _, [] => []
  | k, b :: l =>
    match b.timeStart with
    | some t => (k, anchorHours t) :: anchorsFrom (k + 1) l
    | none => anchorsFrom (k + 1) l

/-- JS `Math.round` on the exact rationals arising here. -/
def jsRound (q : ℚ) : Int := ⌊q + 1 / 2⌋

/-- The minute-rounding step of `setInterpolatedTime`: floor the hours,
round the minutes, and carry a rounded 60 into the hour. -/
def roundTime (h : ℚ) : TimeOfDay :=
  let w : Int := ⌊h⌋
  let m : Int := jsRound ((h - w) * 60)
  if 60 ≤ m then ⟨w + 1, 0⟩ else ⟨w, m⟩

/-- `setInterpolatedTime`: install the rounded time and recompute the
estimated window as `[t, t + 60min]`. -/
def setInterpolatedTime (b : ParsedBullet) (h : ℚ) : ParsedBullet :=
  let t := roundTime h
  { b with timeStart := some t,
           estimatedTimeRange := (timeMinutes t, timeMinutes t + 60) }

/-- Extrapolation after the last anchor: `step = (end − hours)/(count+1)`
with `count = n − 1 − index`, applied at offset `i − index`. -/
def afterFormula (e : ℚ) (n : Nat) (prev : Nat × ℚ) (i : Nat) : ℚ :=
  prev.2 + ((e - prev.2) / ((n : ℚ) - (prev.1 : ℚ))) * ((i : ℚ) - (prev.1 : ℚ))

/-- Interpolation between two consecutive anchors:
`step = (endHours − startHours)/(gap+1)` applied at offset `i − startIdx`. -/
def gapFormula (p q : Nat × ℚ) (i : Nat) : ℚ :=
  p.2 + ((q.2 - p.2) / ((q.1 : ℚ) - (p.1 : ℚ))) * ((i : ℚ) - (p.1 : ℚ))

/-- Walk the anchor list past `prev` to find the region containing
position `i` (`none` when `i` is itself an anchor). -/
def betweenOrAfter (e : ℚ) (n : Nat) : Nat × ℚ → List (Nat × ℚ) → Nat → Option ℚ
  | prev, [], i => some (afterFormula e n prev i)
  | prev, q :: rest, i =>
    if i < q.1 then some (gapFormula prev q i)
    else if i = q.1 then none
    else betweenOrAfter e n q rest i

/-- Interpolated hours for position `i` given the (nonempty) anchor list:
before the first anchor `start + ((h₀ − start)/(i₀+1))·(i+1)`, otherwise
delegate to the anchor walk. -/
def interpHoursAux (s e : ℚ) (n : Nat) (anchors : List (Nat × ℚ)) (i : Nat) : Option ℚ :=
  match anchors with
  | [] => none
  | a :: rest =>
    if i < a.1 then some (s + ((a.2 - s) / ((a.1 : ℚ) + 1)) * ((i : ℚ) + 1))
    else if i = a.1 then none
    else betweenOrAfter e n a rest i

/-- `List.mapIdx` with an explicit starting index (used so that indexed
access lemmas are elementary). -/
def mapIdxFrom (f : Nat → α → β) : Nat → List α → List β
  | _, [] => []
  | k, a :: l => f k a :: mapIdxFrom f (k + 1) l

/-- `interpolateTimes`: anchors keep their times; with no anchors the
records are spread evenly over the bucket range, otherwise each non-anchor
gets the piecewise-linear value of its region. -/
def interpolateTimes (bullets : List ParsedBullet) (rng : Int × Int) : List ParsedBullet :=
  if bullets.isEmpty then bullets
  else
    let s : ℚ := (rng.1 : ℚ)
    let e : ℚ := (rng.2 : ℚ)
    let n := bullets.length
    let anchors := anchorsFrom 0 bullets
    if anchors.isEmpty then
      let step := (e - s) / ((n : ℚ) + 1)
      mapIdxFrom (fun i b => setInterpolatedTime b (s + step * ((i : ℚ) + 1))) 0 bullets
    else
      mapIdxFrom (fun i b =>
        match interpHoursAux s e n anchors i with
        | some h => setInterpolatedTime b h
        | none => b) 0 bullets

/-- `parseSection`: split into lines, drop blank lines, build the records,
then interpolate missing times over the bucket range. -/
def parseSection (txt : Option (List Char)) (sec : Bucket) (startIndex : Nat) : List ParsedBullet :=
  match txt with
  | none => []
  | some t =>
    let lines := (splitLines t).filter (fun l => !(trim l).isEmpty)
    interpolateTimes (buildBullets lines sec startIndex) (SECTION_RANGES sec)

/-- `ParsedEntry`: the three bucket lists and the flattened `all` list. -/
structure ParsedEntry where
  morning : List ParsedBullet
  afternoon : List ParsedBullet
  night : List ParsedBullet
  all : List ParsedBullet
deriving Repr

/-- `parseEntry`: parse the three buckets with a continuous index and
concatenate. -/
def parseEntry (m a n : Option (List Char)) : ParsedEntry :=
  let mb := parseSection m Bucket.morning 0
  let ab := parseSection a Bucket.afternoon mb.length
  let nb := parseSection n Bucket.night (mb.length + ab.length)
  ⟨mb, ab, nb, mb ++ ab ++ nb⟩

/-- `findBulletsAtTime`: all records whose estimated window contains the
query time, inclusively on both ends. -/
def findBulletsAtTime (bullets : List ParsedBullet) (t : Int) : List ParsedBullet :=
  bullets.filter (fun b =>
    decide (b.estimatedTimeRange.1 ≤ t) && decide (t ≤ b.estimatedTimeRange.2))

/-- The resolved time of record `i`, in minutes from midnight (`none`
when the record is missing or carries no `timeStart`). -/
def minutesAt (l : List ParsedBullet) (i : Nat) : Option Int :=
  (l[i]?).bind fun b => b.timeStart.map timeMinutes

/-- A record with no resolved time, as produced for a plain bullet line
in the morning bucket (window at the bucket midpoint). -/
def noTimeRec : ParsedBullet :=
  { text := ("x".toList), rawText := ("x".toList), timeStart := none,
    timeEnd := none, estimatedTimeRange := (540, 600),
    bucket := Bucket.morning, index := 0 }

/-! Spec-side grammar of §4.2, for the refinement claim about
`parseTimeString`.  These definitions follow the spec's words — a
12-hour string `{H}[:MM] (am|pm)` (case-insensitive, with optional
whitespace before the meridiem as in the spec's own notation) and a
24-hour string `HH:MM` — and are compared against the code's parser. -/

/-- A digit string of one or two digits with value `v`. -/
def DigitRun (ds : List Char) (v : Nat) : Prop :=
  (ds.length = 1 ∨ ds.length = 2) ∧ (∀ c ∈ ds, c.isDigit = true) ∧ v = digitsVal ds

/-- A case-insensitive meridiem `am`/`pm`, with its am/pm flag. -/
def MerForm (m1 m2 : Char) (isPM : Bool) : Prop :=
  m2.toLower = 'm' ∧
    ((m1.toLower = 'a' ∧ isPM = false) ∨ (m1.toLower = 'p' ∧ isPM = true))

/-- The optional `[:MM]` part with its minutes value (0 when absent). -/
def MinutesForm (mins : List Char) (mm : Nat) : Prop :=
  (mins = [] ∧ mm = 0) ∨
    ∃ a b, mins = [':', a, b] ∧ a.isDigit = true ∧ b.isDigit = true
      ∧ mm = 10 * dval a + dval b

/-- The spec's 12-hour form `{H}[:MM][ws](am|pm)`. -/
def Form12 (cs : List Char) (H MM : Nat) (isPM : Bool) : Prop :=
  ∃ hd mins sp m1 m2, cs = hd ++ mins ++ sp ++ [m1, m2] ∧
    DigitRun hd H ∧ MinutesForm mins MM ∧ (∀ c ∈ sp, jsSpace c = true) ∧
    MerForm m1 m2 isPM

/-- The spec's 24-hour form `HH:MM`. -/
def Form24 (cs : List Char) (H MM : Nat) : Prop :=
  ∃ hd a b, cs = hd ++ [':', a, b] ∧ DigitRun hd H ∧
    a.isDigit = true ∧ b.isDigit = true ∧ MM = 10 * dval a + dval b

/-- The record parsed from a morning line `"8am - A"` (anchor at 8:00). -/
def eightRec : ParsedBullet :=
  { text := ("A".toList), rawText := ("8am - A".toList),
    timeStart := some ⟨8, 0⟩, timeEnd := none, estimatedTimeRange := (480, 540),
    bucket := Bucket.morning, index := 0 }

/-- The record parsed from a morning line `"- mid"` (no time). -/
def midRec : ParsedBullet :=
  { text := ("mid".toList), rawText := ("mid".toList),
    timeStart := none, timeEnd := none, estimatedTimeRange := (540, 600),
    bucket := Bucket.morning, index := 1 }

/-- The record parsed from a morning line `"11am - B"` (anchor at 11:00). -/
def elevenRec : ParsedBullet :=
  { text := ("B".toList), rawText := ("11am - B".toList),
    timeStart := some ⟨11, 0⟩, timeEnd := none, estimatedTimeRange := (660, 720),
    bucket := Bucket.morning, index := 2 }

/-- The record parsed from a morning line `"9am - Had coffee"`. -/
def coffeeRec : ParsedBullet :=
  { text := ("Had coffee".toList), rawText := ("9am - Had coffee".toList),
    timeStart := some ⟨9, 0⟩, timeEnd := none, estimatedTimeRange := (540, 600),
    bucket := Bucket.morning, index := 0 }

/-- The record parsed from a morning line `"9am - Task"`. -/
def taskRec : ParsedBullet :=
  { text := ("Task".toList), rawText := ("9am - Task".toList),
    timeStart := some ⟨9, 0⟩, timeEnd := none, estimatedTimeRange := (540, 600),
    bucket := Bucket.morning, index := 0 }

/-! ### Helper lemmas: indexed map -/

theorem mapIdxFrom_length (f : Nat → α → β) (k : Nat) (l : List α) :
    (mapIdxFrom f k l).length = l.length := by
  induction l generalizing k with
  | nil => rfl
  | cons a t ih => simp [mapIdxFrom, ih]

theorem mapIdxFrom_getElem? (f : Nat → α → β) (k : Nat) (l : List α) (i : Nat) :
    (mapIdxFrom f k l)[i]? = (l[i]?).map (f (k + i)) := by
  induction l generalizing k i with
  | nil => simp [mapIdxFrom]
  | cons a t ih =>
    cases i with
    | zero => simp [mapIdxFrom]
    | succ j =>
      have h := ih (k + 1) j
      have e : k + 1 + j = k + (j + 1) := by omega
      simp only [mapIdxFrom, List.getElem?_cons_succ]
      rw [h, e]

theorem mem_mapIdxFrom {f : Nat → α → β} {b : β} :
    ∀ {k : Nat} {l : List α}, b ∈ mapIdxFrom f k l → ∃ i a, a ∈ l ∧ b = f i a := by
  intro k l
  induction l generalizing k with
  | nil => intro h; simp [mapIdxFrom] at h
  | cons a t ih =>
    intro h
    rcases List.mem_cons.mp h with h1 | h2
    · exact ⟨k, a, List.mem_cons_self a t, h1⟩
    · rcases ih h2 with ⟨i, x, hx, hb⟩
      exact ⟨i, x, List.mem_cons_of_mem a hx, hb⟩

theorem mapIdxFrom_map_eq {f : Nat → α → β} {g : β → γ} {g' : α → γ}
    (h : ∀ i a, g (f i a) = g' a) (k : Nat) (l : List α) :
    (mapIdxFrom f k l).map g = l.map g' := by
  induction l generalizing k with
  | nil => rfl
  | cons a t ih => simp [mapIdxFrom, h, ih]

/-! ### Helper lemmas: the anchor scan -/

theorem anchorsFrom_nil_of_none {l : List ParsedBullet}
    (h : ∀ b ∈ l, b.timeStart = none) : ∀ k, anchorsFrom k l = [] := by
  induction l with
  | nil => intro k; rfl
  | cons b t ih =>
    intro k
    have hb := h b (List.mem_cons_self b t)
    simp [anchorsFrom, hb, ih (fun x hx => h x (List.mem_cons_of_mem b hx))]

theorem anchorsFrom_lb {l : List ParsedBullet} :
    ∀ {k : Nat} {p : Nat × ℚ}, p ∈ anchorsFrom k l → k ≤ p.1 ∧ p.1 < k + l.length := by
  induction l with
  | nil => intro k p h; simp [anchorsFrom] at h
  | cons b t ih =>
    intro k p h
    unfold anchorsFrom at h
    cases hb : b.timeStart with
    | some tv =>
      rw [hb] at h
      rcases List.mem_cons.mp h with h1 | h2
      · subst h1
        refine ⟨le_refl k, ?_⟩
        simp only [List.length_cons]
        omega
      · rcases ih h2 with ⟨h3, h4⟩
        refine ⟨by omega, ?_⟩
        simp only [List.length_cons]
        omega
    | none =>
      rw [hb] at h
      rcases ih h with ⟨h3, h4⟩
      refine ⟨by omega, ?_⟩
      simp only [List.length_cons]
      omega

theorem anchorsFrom_sorted (l : List ParsedBullet) :
    ∀ k, List.Pairwise (fun x y : Nat × ℚ => x.1 < y.1) (anchorsFrom k l) := by
  induction l with
  | nil => intro k; simp [anchorsFrom]
  | cons b t ih =>
    intro k
    unfold anchorsFrom
    cases hb : b.timeStart with
    | some tv =>
      refine List.Pairwise.cons ?_ (ih (k + 1))
      intro p hp
      have := (anchorsFrom_lb hp).1
      simpa using by omega
    | none => exact ih (k + 1)

theorem anchorsFrom_int {l : List ParsedBullet} :
    ∀ {k : Nat} {p : Nat × ℚ}, p ∈ anchorsFrom k l → ∃ z : ℤ, p.2 * 60 = (z : ℚ) := by
  induction l with
  | nil => intro k p h; simp [anchorsFrom] at h
  | cons b t ih =>
    intro k p h
    unfold anchorsFrom at h
    cases hb : b.timeStart with
    | some tv =>
      rw [hb] at h
      rcases List.mem_cons.mp h with h1 | h2
      · refine ⟨tv.hours * 60 + tv.minutes, ?_⟩
        subst h1
        show anchorHours tv * 60 = _
        unfold anchorHours
        push_cast
        ring
      · exact ih h2
    | none =>
      rw [hb] at h
      exact ih h

/-! ### Helper lemmas: minute rounding -/

theorem timeMinutes_roundTime (h : ℚ) :
    timeMinutes (roundTime h) = ⌊60 * h + 1 / 2⌋ := by
  have hlt : h - (⌊h⌋ : ℚ) < 1 := by
    have := Int.lt_floor_add_one h
    linarith
  have hkey : (⌊h⌋ : ℤ) * 60 + ⌊(h - (⌊h⌋ : ℚ)) * 60 + 1 / 2⌋ = ⌊60 * h + 1 / 2⌋ := by
    have he : (60 * h + 1 / 2 : ℚ) = ((h - (⌊h⌋ : ℚ)) * 60 + 1 / 2) + ((⌊h⌋ * 60 : ℤ) : ℚ) := by
      push_cast
      ring
    rw [he, Int.floor_add_int]
    ring
  have hm_le : ⌊(h - (⌊h⌋ : ℚ)) * 60 + 1 / 2⌋ ≤ 60 := by
    have h61 : ((h - (⌊h⌋ : ℚ)) * 60 + 1 / 2 : ℚ) < ((61 : ℤ) : ℚ) := by
      push_cast
      linarith
    have := Int.floor_lt.mpr h61
    omega
  simp only [roundTime, jsRound]
  split
  · next hge =>
    simp only [timeMinutes]
    omega
  · next hge =>
    simp only [timeMinutes]
    omega

theorem setInterpolatedTime_timeStart (b : ParsedBullet) (h : ℚ) :
    (setInterpolatedTime b h).timeStart = some (roundTime h) := rfl

/-! ### Helper lemmas: floor arithmetic for the interpolation bounds -/

theorem floor_step_pos {σ : ℚ} (hσ : 1 ≤ σ) (k : Nat) (hk : 1 ≤ k) :
    1 ≤ ⌊σ * (k : ℚ) + 1 / 2⌋ := by
  have hk' : (1 : ℚ) ≤ (k : ℚ) := by exact_mod_cast hk
  have h1 : ((1 : ℤ) : ℚ) ≤ σ * (k : ℚ) + 1 / 2 := by push_cast; nlinarith
  exact Int.le_floor.mpr h1

theorem floor_step_lt {σ : ℚ} {k : Nat} {M : ℤ} (h : σ * (k : ℚ) ≤ (M : ℚ) - 1) :
    ⌊σ * (k : ℚ) + 1 / 2⌋ < M := by
  apply Int.floor_lt.mpr
  linarith

theorem floor_step_mono {σ : ℚ} (hσ : 1 ≤ σ) (k k2 : Nat) (hkk : k < k2) :
    ⌊σ * (k : ℚ) + 1 / 2⌋ < ⌊σ * (k2 : ℚ) + 1 / 2⌋ := by
  have hc : (k : ℚ) + 1 ≤ (k2 : ℚ) := by exact_mod_cast hkk
  have hle : σ * (k : ℚ) + 1 / 2 + 1 ≤ σ * (k2 : ℚ) + 1 / 2 := by nlinarith
  calc ⌊σ * (k : ℚ) + 1 / 2⌋ < ⌊σ * (k : ℚ) + 1 / 2⌋ + 1 := lt_add_one _
    _ = ⌊σ * (k : ℚ) + 1 / 2 + 1⌋ := by rw [Int.floor_add_one]
    _ ≤ ⌊σ * (k2 : ℚ) + 1 / 2⌋ := Int.floor_le_floor hle

/-! ### Helper lemmas: access into the interpolated list -/

theorem interp_noAnchor_minutesAt {bullets : List ParsedBullet} {rng : Int × Int} {i : Nat}
    (hne : bullets.isEmpty = false)
    (hanch : anchorsFrom 0 bullets = [])
    (hi : i < bullets.length) :
    minutesAt (interpolateTimes bullets rng) i =
      some ⌊60 * ((rng.1 : ℚ) +
        ((rng.2 : ℚ) - (rng.1 : ℚ)) / ((bullets.length : ℚ) + 1) * ((i : ℚ) + 1)) + 1 / 2⌋ := by
  simp only [interpolateTimes, hne, hanch, Bool.false_eq_true, if_false, List.isEmpty_nil,
    if_true, minutesAt]
  rw [mapIdxFrom_getElem?, List.getElem?_eq_getElem hi]
  simp [setInterpolatedTime_timeStart, timeMinutes_roundTime]

theorem interp_anchors_minutesAt {bullets : List ParsedBullet} {rng : Int × Int} {i : Nat}
    {hv : ℚ}
    (hne : bullets.isEmpty = false)
    (hanch : (anchorsFrom 0 bullets).isEmpty = false)
    (hi : i < bullets.length)
    (haux : interpHoursAux (rng.1 : ℚ) (rng.2 : ℚ) bullets.length (anchorsFrom 0 bullets) i
            = some hv) :
    minutesAt (interpolateTimes bullets rng) i = some ⌊60 * hv + 1 / 2⌋ := by
  simp only [interpolateTimes, hne, hanch, Bool.false_eq_true, if_false, minutesAt]
  rw [mapIdxFrom_getElem?, List.getElem?_eq_getElem hi]
  simp [Nat.zero_add, haux, setInterpolatedTime_timeStart, timeMinutes_roundTime]

theorem betweenOrAfter_gap (e : ℚ) (n : Nat) {p q : Nat × ℚ} {i : Nat} (l2 : List (Nat × ℚ))
    (hpi : p.1 < i) (hiq : i < q.1) :
    ∀ (l1 : List (Nat × ℚ)) (prev : Nat × ℚ), (∀ x ∈ l1, x.1 < i) → prev.1 < i →
      betweenOrAfter e n prev (l1 ++ p :: q :: l2) i = some (gapFormula p q i) := by
  intro l1
  induction l1 with
  | nil =>
    intro prev _ hprev
    have hA : ¬ i < p.1 := by omega
    have hB : ¬ i = p.1 := by omega
    simp only [List.nil_append, betweenOrAfter]
    rw [if_neg hA, if_neg hB, if_pos hiq]
  | cons x l1' ih =>
    intro prev hall hprev
    have hx : x.1 < i := hall x (List.mem_cons_self x l1')
    have hA : ¬ i < x.1 := by omega
    have hB : ¬ i = x.1 := by omega
    simp only [List.cons_append, betweenOrAfter]
    rw [if_neg hA, if_neg hB]
    exact ih x (fun y hy => hall y (List.mem_cons_of_mem x hy)) hx

theorem interpHoursAux_gap {s e : ℚ} {n : Nat} {p q : Nat × ℚ} {i : Nat}
    (l1 l2 : List (Nat × ℚ))
    (hall : ∀ x ∈ l1, x.1 < i) (hpi : p.1 < i) (hiq : i < q.1) :
    interpHoursAux s e n (l1 ++ p :: q :: l2) i = some (gapFormula p q i) := by
  cases l1 with
  | nil =>
    have hA : ¬ i < p.1 := by omega
    have hB : ¬ i = p.1 := by omega
    simp only [List.nil_append, interpHoursAux]
    rw [if_neg hA, if_neg hB]
    simp only [betweenOrAfter]
    rw [if_pos hiq]
  | cons x l1' =>
    have hx : x.1 < i := hall x (List.mem_cons_self x l1')
    have hA : ¬ i < x.1 := by omega
    have hB : ¬ i = x.1 := by omega
    simp only [List.cons_append, interpHoursAux]
    rw [if_neg hA, if_neg hB]
    exact betweenOrAfter_gap e n l2 hpi hiq l1' x
      (fun y hy => hall y (List.mem_cons_of_mem x hy)) hx

/-! ### Helper lemmas: shape of the interpolated records -/

theorem interp_mem_structure {bl : List ParsedBullet} {rng : Int × Int} {b' : ParsedBullet}
    (hb : b' ∈ interpolateTimes bl rng) :
    ∃ b, b ∈ bl ∧ (b' = b ∨ ∃ h : ℚ, b' = setInterpolatedTime b h) := by
  simp only [interpolateTimes] at hb
  split at hb
  · exact ⟨b', hb, Or.inl rfl⟩
  · split at hb
    · rcases mem_mapIdxFrom hb with ⟨i, a, ha, hba⟩
      exact ⟨a, ha, Or.inr ⟨_, hba⟩⟩
    · rcases mem_mapIdxFrom hb with ⟨i, a, ha, hba⟩
      refine ⟨a, ha, ?_⟩
      revert hba
      cases interpHoursAux ((rng.1 : ℚ)) ((rng.2 : ℚ)) bl.length (anchorsFrom 0 bl) i with
      | none => exact fun hba => Or.inl hba
      | some hv => exact fun hba => Or.inr ⟨hv, hba⟩

theorem interp_map_eq {bl : List ParsedBullet} {rng : Int × Int} {γ : Type}
    (g : ParsedBullet → γ)
    (hset : ∀ b h, g (setInterpolatedTime b h) = g b) :
    (interpolateTimes bl rng).map g = bl.map g := by
  simp only [interpolateTimes]
  split
  · rfl
  · split
    · exact mapIdxFrom_map_eq (fun i a => hset a _) 0 bl
    · refine mapIdxFrom_map_eq (fun i a => ?_) 0 bl
      cases interpHoursAux ((rng.1 : ℚ)) ((rng.2 : ℚ)) bl.length (anchorsFrom 0 bl) i with
      | none => rfl
      | some hv => exact hset a hv

theorem interp_length (bl : List ParsedBullet) (rng : Int × Int) :
    (interpolateTimes bl rng).length = bl.length := by
  simp only [interpolateTimes]
  split
  · rfl
  · split <;> rw [mapIdxFrom_length]

/-! ### Helper lemmas: record construction -/

theorem mkBullet_spec {line : List Char} {sec : Bucket} {idx : Nat} {b : ParsedBullet}
    (h : mkBullet line sec idx = some b) :
    (trim (stripBullet line)).isEmpty = false ∧
    b = { text := if (extractTimePfx (trim (stripBullet line))).2.2.isEmpty
                    then trim (stripBullet line)
                    else (extractTimePfx (trim (stripBullet line))).2.2,
          rawText := trim (stripBullet line),
          timeStart := mkExtracted (trim (stripBullet line)) sec,
          timeEnd := (extractTimePfx (trim (stripBullet line))).2.1,
          estimatedTimeRange := provisionalWindow sec (mkExtracted (trim (stripBullet line)) sec),
          bucket := sec, index := idx } := by
  simp only [mkBullet] at h
  split at h
  · simp at h
  · next hcond =>
    refine ⟨by simpa using hcond, ?_⟩
    injection h with h
    exact h.symm

theorem provisionalWindow_snd (sec : Bucket) (ex : Option TimeOfDay) :
    (provisionalWindow sec ex).2 = (provisionalWindow sec ex).1 + 60 := by
  cases ex <;> rfl

theorem buildBullets_mem {b : ParsedBullet} {sec : Bucket} :
    ∀ {lines : List (List Char)} {k : Nat}, b ∈ buildBullets lines sec k →
      ∃ line idx, mkBullet line sec idx = some b := by
  intro lines
  induction lines with
  | nil => intro k h; simp [buildBullets] at h
  | cons l ls ih =>
    intro k h
    unfold buildBullets at h
    cases hmk : mkBullet l sec k with
    | some b0 =>
      rw [hmk] at h
      rcases List.mem_cons.mp h with h1 | h2
      · exact ⟨l, k, by rw [hmk, h1]⟩
      · exact ih h2
    | none =>
      rw [hmk] at h
      exact ih h

/-! ### Helper lemmas: record indices -/

theorem range'_join (s m n t : Nat) (h : t = s + m) :
    List.range' s m ++ List.range' t n = List.range' s (m + n) := by
  subst h
  induction m generalizing s with
  | zero => simp
  | succ k ih =>
    have h1 : s + (k + 1) = (s + 1) + k := by omega
    have h2 : k + 1 + n = (k + n) + 1 := by omega
    rw [List.range'_succ, List.cons_append, h1, ih (s + 1), h2, List.range'_succ]

theorem buildBullets_map_index (sec : Bucket) :
    ∀ (lines : List (List Char)) (k : Nat),
      (buildBullets lines sec k).map (fun b => b.index)
        = List.range' k (buildBullets lines sec k).length := by
  intro lines
  induction lines with
  | nil => intro k; rfl
  | cons l ls ih =>
    intro k
    unfold buildBullets
    cases hmk : mkBullet l sec k with
    | none => exact ih k
    | some b =>
      have hidx : b.index = k := by
        rcases mkBullet_spec hmk with ⟨_, hb⟩
        rw [hb]
      simp only [List.map_cons, List.length_cons, hidx, ih (k + 1), List.range'_succ]

theorem parseSection_map_index (txt : Option (List Char)) (sec : Bucket) (k : Nat) :
    (parseSection txt sec k).map (fun b => b.index)
      = List.range' k (parseSection txt sec k).length := by
  cases txt with
  | none => rfl
  | some t =>
    unfold parseSection
    rw [interp_map_eq (fun b => b.index) (fun b h => rfl), interp_length]
    exact buildBullets_map_index sec _ k

/-- Every record of a parsed bucket satisfies the per-record predicate
provable from construction and preserved by `setInterpolatedTime`. -/
theorem parseSection_mem_elim {txt : Option (List Char)} {sec : Bucket} {k : Nat}
    {b : ParsedBullet} (hb : b ∈ parseSection txt sec k) :
    ∃ b0, (∃ line idx, mkBullet line sec idx = some b0) ∧
      (b = b0 ∨ ∃ h : ℚ, b = setInterpolatedTime b0 h) := by
  cases txt with
  | none => simp [parseSection] at hb
  | some t =>
    unfold parseSection at hb
    rcases interp_mem_structure hb with ⟨b0, hb0, hcase⟩
    exact ⟨b0, buildBullets_mem hb0, hcase⟩

/-! ### Claim theorems -/

/-- C1: the spec says a line whose bullet marker is preceded by whitespace
is discarded entirely; the code's stripping regex `^[\s]*[-•*]\s*` instead
strips the indentation and marker and keeps the line.  On the repository's
own test input `"- Main task\n  - Sub task\n- Another task"` the code
yields three records — the indented sub-item produces the record
`"Sub task"` — while the test `should skip indented sub-bullets` asserts
two. -/
theorem c1_indented_subitem_kept :
    (parseSection (some (("- Main task\n  - Sub task\n- Another task").toList))
        Bucket.morning 0).map (fun b => b.text) =
      [("Main task".toList), ("Sub task".toList), ("Another task".toList)] ∧
    (parseSection (some (("- Main task\n  - Sub task\n- Another task").toList))
        Bucket.morning 0).length = 3 := by
  constructor <;> decide

/-- C6 (amended): a record's display text equals the time-lead extractor's
remaining text when that remainder is non-empty; when the remainder is
empty — and when no time expression was recognized, in which case the
remainder is the whole cleaned line — the text is the whole cleaned line
(`rest || cleanedLine` in the source). -/
theorem c6_text_is_rest_or_cleaned (txt : Option (List Char)) (sec : Bucket) (k : Nat)
    (b : ParsedBullet) (hb : b ∈ parseSection txt sec k) :
    b.text = (if (extractTimePfx b.rawText).2.2.isEmpty
                then b.rawText else (extractTimePfx b.rawText).2.2) := by
  rcases parseSection_mem_elim hb with ⟨b0, ⟨line, idx, hmk⟩, hcase⟩
  have hbase : b0.text = (if (extractTimePfx b0.rawText).2.2.isEmpty
      then b0.rawText else (extractTimePfx b0.rawText).2.2) := by
    rcases mkBullet_spec hmk with ⟨_, rfl⟩
    rfl
  rcases hcase with rfl | ⟨h, rfl⟩
  · exact hbase
  · exact hbase

/-- C6 witness: the record parsed from `"9am - Had coffee"`. -/
theorem c6_text_is_rest_or_cleaned_witness :
    coffeeRec.text = (if (extractTimePfx coffeeRec.rawText).2.2.isEmpty
        then coffeeRec.rawText else (extractTimePfx coffeeRec.rawText).2.2) :=
  c6_text_is_rest_or_cleaned (some (("9am - Had coffee").toList)) Bucket.morning 0
    coffeeRec (by decide)

/-- C6 counterexample: for the line `"9am"` the time-lead extractor
matches with empty remaining text, but the record's text is the whole
cleaned line `"9am"`, not the empty remainder the claim requires. -/
theorem c6_counterexample :
    (extractTimePfx (("9am").toList)).1 = some ⟨9, 0⟩ ∧
    (extractTimePfx (("9am").toList)).2.2 = [] ∧
    (parseSection (some (("9am").toList)) Bucket.morning 0).map (fun b => b.text)
      = [("9am".toList)] ∧
    ("9am".toList : List Char) ≠ [] := by
  refine ⟨by decide, by decide, by decide, by decide⟩

/-- C7: every record of a resolution call carries an estimated window
with `end = start + 60` minutes, whatever the origin of its time. -/
theorem c7_window_is_one_hour (m a n : Option (List Char)) (b : ParsedBullet)
    (hb : b ∈ (parseEntry m a n).all) :
    b.estimatedTimeRange.2 = b.estimatedTimeRange.1 + 60 := by
  have hsec : ∀ (txt : Option (List Char)) (sec : Bucket) (k : Nat) (b' : ParsedBullet),
      b' ∈ parseSection txt sec k →
      b'.estimatedTimeRange.2 = b'.estimatedTimeRange.1 + 60 := by
    intro txt sec k b' hb'
    rcases parseSection_mem_elim hb' with ⟨b0, ⟨line, idx, hmk⟩, hcase⟩
    have hbase : b0.estimatedTimeRange.2 = b0.estimatedTimeRange.1 + 60 := by
      rcases mkBullet_spec hmk with ⟨_, rfl⟩
      exact provisionalWindow_snd sec _
    rcases hcase with rfl | ⟨h, rfl⟩
    · exact hbase
    · rfl
  have hsplit : b ∈ parseSection m Bucket.morning 0 ∨
      b ∈ parseSection a Bucket.afternoon (parseSection m Bucket.morning 0).length ∨
      b ∈ parseSection n Bucket.night
        ((parseSection m Bucket.morning 0).length
          + (parseSection a Bucket.afternoon (parseSection m Bucket.morning 0).length).length) := by
    have : b ∈ (parseSection m Bucket.morning 0
        ++ parseSection a Bucket.afternoon (parseSection m Bucket.morning 0).length)
        ++ parseSection n Bucket.night
          ((parseSection m Bucket.morning 0).length
            + (parseSection a Bucket.afternoon (parseSection m Bucket.morning 0).length).length) :=
      hb
    rcases List.mem_append.mp this with h1 | h2
    · rcases List.mem_append.mp h1 with h3 | h4
      · exact Or.inl h3
      · exact Or.inr (Or.inl h4)
    · exact Or.inr (Or.inr h2)
  rcases hsplit with h | h | h
  · exact hsec _ _ _ _ h
  · exact hsec _ _ _ _ h
  · exact hsec _ _ _ _ h

/-- C7 witness: the record parsed from a morning `"9am - Task"` entry. -/
theorem c7_window_is_one_hour_witness :
    taskRec.estimatedTimeRange.2 = taskRec.estimatedTimeRange.1 + 60 :=
  c7_window_is_one_hour (some (("9am - Task").toList)) none none taskRec (by decide)

/-- C8: the flattened list is the concatenation of the three buckets, its
length is the sum of the bucket lengths, and the `index` values are
exactly `0..N-1` in order. -/
theorem c8_flat_list_and_indices (m a n : Option (List Char)) :
    (parseEntry m a n).all
      = (parseEntry m a n).morning ++ (parseEntry m a n).afternoon
        ++ (parseEntry m a n).night ∧
    (parseEntry m a n).all.length
      = (parseEntry m a n).morning.length + (parseEntry m a n).afternoon.length
        + (parseEntry m a n).night.length ∧
    (parseEntry m a n).all.map (fun b => b.index)
      = List.range (parseEntry m a n).all.length := by
  refine ⟨rfl, by simp only [parseEntry, List.length_append], ?_⟩
  show ((parseSection m Bucket.morning 0
      ++ parseSection a Bucket.afternoon (parseSection m Bucket.morning 0).length)
      ++ parseSection n Bucket.night _).map (fun b => b.index) = _
  rw [List.map_append, List.map_append,
    parseSection_map_index, parseSection_map_index, parseSection_map_index,
    range'_join _ _ _ _ (by omega),
    range'_join _ _ _ _ (by omega),
    List.range_eq_range']
  congr 1
  simp only [parseEntry, List.length_append]

/-- C9: the Time-Window Lookup returns exactly the records whose
estimated window contains the query time inclusively on both ends; in
particular overlapping records are all returned, and a time inside no
window yields the empty list (the filter is total — there is no error
path). -/
theorem c9_lookup_membership (bullets : List ParsedBullet) (t : Int) (b : ParsedBullet) :
    b ∈ findBulletsAtTime bullets t ↔
      b ∈ bullets ∧ b.estimatedTimeRange.1 ≤ t ∧ t ≤ b.estimatedTimeRange.2 := by
  simp [findBulletsAtTime, List.mem_filter, and_assoc]

/-- C10: when the explicit-meridiem search finds a token anywhere in the
line, its (possibly failed) parse is returned directly: a token violating
the grammar bounds makes the embedded extractor yield no time at all —
the bare-numeric pass is never consulted — and the record built from such
a line (with no time-lead match either) carries no `timeStart`, entering
interpolation as time-not-resolved. -/
theorem c10_failed_explicit_short_circuits (cs tok line : List Char) (sec : Bucket)
    (k : Nat)
    (hfound : explicitFind cs = some tok)
    (hfail : parseTimeString tok = none)
    (hclean : trim (stripBullet line) = cs)
    (hnofx : (extractTimePfx cs).1 = none) :
    extractTimeFromText cs sec = none ∧
    ∃ b, mkBullet line sec k = some b ∧ b.timeStart = none := by
  have h1 : extractTimeFromText cs sec = none := by
    unfold extractTimeFromText
    rw [hfound]
    exact hfail
  have hne : cs.isEmpty = false := by
    cases cs with
    | nil => simp [explicitFind] at hfound
    | cons c r => rfl
  have hext : mkExtracted cs sec = none := by
    unfold mkExtracted
    rw [hnofx]
    exact h1
  have hmk : mkBullet line sec k = some
      { text := if (extractTimePfx cs).2.2.isEmpty then cs else (extractTimePfx cs).2.2,
        rawText := cs, timeStart := mkExtracted cs sec,
        timeEnd := (extractTimePfx cs).2.1,
        estimatedTimeRange := provisionalWindow sec (mkExtracted cs sec),
        bucket := sec, index := k } := by
    simp only [mkBullet]
    rw [hclean, hne]
    rfl
  exact ⟨h1, _, hmk, hext⟩

/-- C10 witness: the night line `"- at 14pm maybe 7:30"` — the first
meridiem token `14pm` fails the bounds, and the valid bare token `7:30`
later in the line is never consulted. -/
theorem c10_failed_explicit_short_circuits_witness :
    extractTimeFromText (("at 14pm maybe 7:30").toList) Bucket.night = none ∧
    ∃ b, mkBullet (("- at 14pm maybe 7:30").toList) Bucket.night 0 = some b ∧
      b.timeStart = none :=
  c10_failed_explicit_short_circuits (("at 14pm maybe 7:30").toList) (("14pm").toList)
    (("- at 14pm maybe 7:30").toList) Bucket.night 0
    (by decide) (by decide) (by decide) (by decide)

/-- C2 (amended): in a bucket with no anchors the interpolated times are
strictly increasing and strictly inside `(bucketStart, bucketEnd)` —
provided the distribution step `(end−start)/(n+1)` is at least one
minute, i.e. `n + 1 ≤ 60·(end−start)`.  (With more records the minute
rounding can collapse neighbours and touch the boundary, see the
counterexample.) -/
theorem c2_no_anchor_distribution (sec : Bucket) (bullets : List ParsedBullet)
    (hne : bullets ≠ [])
    (hall : ∀ b ∈ bullets, b.timeStart = none)
    (hcnt : ((bullets.length : ℚ) + 1)
      ≤ 60 * (((SECTION_RANGES sec).2 : ℚ) - ((SECTION_RANGES sec).1 : ℚ)))
    (i j : Nat) (hij : i ≤ j) (hj : j < bullets.length) :
    ∃ ti tj : ℤ,
      minutesAt (interpolateTimes bullets (SECTION_RANGES sec)) i = some ti ∧
      minutesAt (interpolateTimes bullets (SECTION_RANGES sec)) j = some tj ∧
      60 * (SECTION_RANGES sec).1 < ti ∧ tj < 60 * (SECTION_RANGES sec).2 ∧
      ti ≤ tj ∧ (i < j → ti < tj) := by
  have hne' : bullets.isEmpty = false := by
    cases bullets with
    | nil => exact absurd rfl hne
    | cons x l => rfl
  have hanch : anchorsFrom 0 bullets = [] := anchorsFrom_nil_of_none hall 0
  have hi : i < bullets.length := lt_of_le_of_lt hij hj
  have hn1 : (0 : ℚ) < (bullets.length : ℚ) + 1 := by positivity
  have key : ∀ idx : Nat, idx < bullets.length →
      minutesAt (interpolateTimes bullets (SECTION_RANGES sec)) idx
        = some (60 * (SECTION_RANGES sec).1
            + ⌊(60 * ((((SECTION_RANGES sec).2 : ℚ) - ((SECTION_RANGES sec).1 : ℚ))
                / ((bullets.length : ℚ) + 1))) * ((idx + 1 : Nat) : ℚ) + 1 / 2⌋) := by
    intro idx hidx
    rw [interp_noAnchor_minutesAt hne' hanch hidx]
    congr 1
    have hrw : (60 * (((SECTION_RANGES sec).1 : ℚ)
        + ((((SECTION_RANGES sec).2 : ℚ) - ((SECTION_RANGES sec).1 : ℚ))
            / ((bullets.length : ℚ) + 1)) * ((idx : ℚ) + 1)) + 1 / 2 : ℚ)
        = ((60 * ((((SECTION_RANGES sec).2 : ℚ) - ((SECTION_RANGES sec).1 : ℚ))
            / ((bullets.length : ℚ) + 1))) * ((idx + 1 : Nat) : ℚ) + 1 / 2)
          + ((60 * (SECTION_RANGES sec).1 : ℤ) : ℚ) := by
      push_cast
      ring
    rw [hrw, Int.floor_add_int]
    omega
  have hσ1 : 1 ≤ 60 * ((((SECTION_RANGES sec).2 : ℚ) - ((SECTION_RANGES sec).1 : ℚ))
      / ((bullets.length : ℚ) + 1)) := by
    rw [mul_div_assoc']
    rw [le_div_iff hn1]
    linarith
  have hσn : (60 * ((((SECTION_RANGES sec).2 : ℚ) - ((SECTION_RANGES sec).1 : ℚ))
      / ((bullets.length : ℚ) + 1))) * ((bullets.length : ℚ) + 1)
      = 60 * (((SECTION_RANGES sec).2 : ℚ) - ((SECTION_RANGES sec).1 : ℚ)) := by
    field_simp
  refine ⟨_, _, key i hi, key j hj, ?_, ?_, ?_, ?_⟩
  · have h1 := floor_step_pos hσ1 (i + 1) (by omega)
    omega
  · have hupper : (60 * ((((SECTION_RANGES sec).2 : ℚ) - ((SECTION_RANGES sec).1 : ℚ))
        / ((bullets.length : ℚ) + 1))) * ((j + 1 : Nat) : ℚ)
        ≤ ((60 * (SECTION_RANGES sec).2 - 60 * (SECTION_RANGES sec).1 : ℤ) : ℚ) - 1 := by
      have hj1 : ((j + 1 : Nat) : ℚ) ≤ (bullets.length : ℚ) := by
        exact_mod_cast hj
      have hmul : (60 * ((((SECTION_RANGES sec).2 : ℚ) - ((SECTION_RANGES sec).1 : ℚ))
          / ((bullets.length : ℚ) + 1))) * ((j + 1 : Nat) : ℚ)
          ≤ (60 * ((((SECTION_RANGES sec).2 : ℚ) - ((SECTION_RANGES sec).1 : ℚ))
            / ((bullets.length : ℚ) + 1))) * (bullets.length : ℚ) :=
        mul_le_mul_of_nonneg_left hj1 (by linarith)
      have hn : (60 * ((((SECTION_RANGES sec).2 : ℚ) - ((SECTION_RANGES sec).1 : ℚ))
          / ((bullets.length : ℚ) + 1))) * (bullets.length : ℚ)
          = 60 * (((SECTION_RANGES sec).2 : ℚ) - ((SECTION_RANGES sec).1 : ℚ))
            - 60 * ((((SECTION_RANGES sec).2 : ℚ) - ((SECTION_RANGES sec).1 : ℚ))
              / ((bullets.length : ℚ) + 1)) := by
        have hexp : (60 * ((((SECTION_RANGES sec).2 : ℚ) - ((SECTION_RANGES sec).1 : ℚ))
            / ((bullets.length : ℚ) + 1))) * ((bullets.length : ℚ) + 1)
            = (60 * ((((SECTION_RANGES sec).2 : ℚ) - ((SECTION_RANGES sec).1 : ℚ))
              / ((bullets.length : ℚ) + 1))) * (bullets.length : ℚ)
              + 60 * ((((SECTION_RANGES sec).2 : ℚ) - ((SECTION_RANGES sec).1 : ℚ))
                / ((bullets.length : ℚ) + 1)) := by
          ring
        linarith [hσn, hexp]
      push_cast
      push_cast at hmul hn
      linarith
    have h2 := floor_step_lt hupper
    omega
  · rcases Nat.lt_or_ge i j with hlt | hge
    · have h3 := floor_step_mono hσ1 (i + 1) (j + 1) (by omega)
      omega
    · have : i = j := le_antisymm hij hge
      subst this
      omega
  · intro hlt
    have h3 := floor_step_mono hσ1 (i + 1) (j + 1) (by omega)
    omega

/-- C2 witness: three no-time records in the morning bucket. -/
theorem c2_no_anchor_distribution_witness :
    ∃ ti tj : ℤ,
      minutesAt (interpolateTimes (List.replicate 3 noTimeRec)
        (SECTION_RANGES Bucket.morning)) 0 = some ti ∧
      minutesAt (interpolateTimes (List.replicate 3 noTimeRec)
        (SECTION_RANGES Bucket.morning)) 2 = some tj ∧
      60 * (SECTION_RANGES Bucket.morning).1 < ti ∧
      tj < 60 * (SECTION_RANGES Bucket.morning).2 ∧
      ti ≤ tj ∧ (0 < 2 → ti < tj) :=
  c2_no_anchor_distribution Bucket.morning (List.replicate 3 noTimeRec)
    (by decide) (by decide) (by decide) 0 2 (by decide) (by decide)

set_option maxRecDepth 40000 in
/-- C2 counterexample: a morning bucket of 720 records with no detectable
time (exactly what 720 plain bullet lines produce).  The distribution
step is 6/721 hours, under half a minute, so the first record's rounded
time is exactly 6:00 = 360 minutes — the bucket boundary — contradicting
the claim's "strictly within the range for every number of records,
including after the minute rounding step". -/
theorem c2_counterexample :
    (∀ b ∈ List.replicate 720 noTimeRec, b.timeStart = none) ∧
    minutesAt (interpolateTimes (List.replicate 720 noTimeRec)
      (SECTION_RANGES Bucket.morning)) 0 = some 360 ∧
    ¬ (60 * (SECTION_RANGES Bucket.morning).1 < (360 : ℤ)) := by
  refine ⟨by decide, by decide, by decide⟩

/-- C3 (amended): the records strictly between two consecutive anchors get
times strictly between the anchors' values and monotonically increasing in
line order — provided the anchors are in strictly increasing time order
and the gap step `(hq−hp)/(iq−ip)` is at least one minute.  (Equal or
out-of-order anchors give a zero or negative step, see the
counterexample; a sub-minute step can collapse under rounding.)
Times are stated in minutes from midnight (fractional hours × 60). -/
theorem c3_gap_interpolation (bullets : List ParsedBullet) (rng : Int × Int)
    (l1 l2 : List (Nat × ℚ)) (ip iq : Nat) (hp hq : ℚ)
    (hanch : anchorsFrom 0 bullets = l1 ++ (ip, hp) :: (iq, hq) :: l2)
    (hlt : hp < hq)
    (hstep : ((iq : ℚ) - (ip : ℚ)) ≤ 60 * (hq - hp))
    (i j : Nat) (hi : ip < i) (hij : i ≤ j) (hj : j < iq) :
    ∃ ti tj : ℤ,
      minutesAt (interpolateTimes bullets rng) i = some ti ∧
      minutesAt (interpolateTimes bullets rng) j = some tj ∧
      60 * hp < (ti : ℚ) ∧ (tj : ℚ) < 60 * hq ∧ ti ≤ tj ∧ (i < j → ti < tj) := by
  have hmemp : ((ip, hp) : Nat × ℚ) ∈ anchorsFrom 0 bullets := by
    rw [hanch]
    simp
  have hmemq : ((iq, hq) : Nat × ℚ) ∈ anchorsFrom 0 bullets := by
    rw [hanch]
    simp
  obtain ⟨zp, hzp⟩ := anchorsFrom_int hmemp
  obtain ⟨zq, hzq⟩ := anchorsFrom_int hmemq
  have hsorted := anchorsFrom_sorted bullets 0
  rw [hanch] at hsorted
  rcases List.pairwise_append.mp hsorted with ⟨hw1, hw2, hrel⟩
  have hl1 : ∀ x ∈ l1, x.1 < ip := fun x hx =>
    hrel x hx ((ip, hp) : Nat × ℚ) (List.mem_cons_self _ _)
  have hipq : ip < iq := by
    rcases List.pairwise_cons.mp hw2 with ⟨hhead, _⟩
    exact hhead ((iq, hq) : Nat × ℚ) (List.mem_cons_self _ _)
  have hiqn : iq < bullets.length := by
    have := (anchorsFrom_lb hmemq).2
    simpa using this
  have hne' : bullets.isEmpty = false := by
    cases hb : bullets with
    | nil =>
      rw [hb] at hanch
      simp [anchorsFrom] at hanch
    | cons x l => rfl
  have hanch_ne : (anchorsFrom 0 bullets).isEmpty = false := by
    rw [hanch]
    cases l1 <;> rfl
  have hden : (0 : ℚ) < (iq : ℚ) - (ip : ℚ) := by
    have : (ip : ℚ) < (iq : ℚ) := by exact_mod_cast hipq
    linarith
  set σ : ℚ := 60 * ((hq - hp) / ((iq : ℚ) - (ip : ℚ))) with hσdef
  have hzp60 : (zp : ℚ) = 60 * hp := by linarith [hzp]
  have hzq60 : (zq : ℚ) = 60 * hq := by linarith [hzq]
  have key : ∀ idx : Nat, ip < idx → idx < iq →
      minutesAt (interpolateTimes bullets rng) idx
        = some (zp + ⌊σ * ((idx - ip : Nat) : ℚ) + 1 / 2⌋) := by
    intro idx h1 h2
    have hidxn : idx < bullets.length := lt_trans h2 hiqn
    have haux : interpHoursAux ((rng.1 : ℚ)) ((rng.2 : ℚ)) bullets.length
        (anchorsFrom 0 bullets) idx = some (gapFormula (ip, hp) (iq, hq) idx) := by
      rw [hanch]
      exact interpHoursAux_gap l1 l2 (fun x hx => lt_trans (hl1 x hx) h1) h1 h2
    rw [interp_anchors_minutesAt hne' hanch_ne hidxn haux]
    congr 1
    have hcast : ((idx - ip : Nat) : ℚ) = (idx : ℚ) - (ip : ℚ) := by
      rw [Nat.cast_sub (le_of_lt h1)]
    have hrw : (60 * gapFormula (ip, hp) (iq, hq) idx + 1 / 2 : ℚ)
        = (σ * ((idx - ip : Nat) : ℚ) + 1 / 2) + (zp : ℚ) := by
      rw [hzp60, hσdef, hcast]
      unfold gapFormula
      ring
    rw [hrw, Int.floor_add_int]
    omega
  have hσ1 : 1 ≤ σ := by
    rw [hσdef, mul_div_assoc']
    rw [le_div_iff hden]
    linarith
  have hσiq : σ * ((iq : ℚ) - (ip : ℚ)) = 60 * (hq - hp) := by
    rw [hσdef]
    field_simp
  have hki : 1 ≤ i - ip := by omega
  refine ⟨zp + ⌊σ * ((i - ip : Nat) : ℚ) + 1 / 2⌋,
          zp + ⌊σ * ((j - ip : Nat) : ℚ) + 1 / 2⌋,
          key i hi (lt_of_le_of_lt hij hj), key j (lt_of_lt_of_le hi hij) hj,
          ?_, ?_, ?_, ?_⟩
  · have h1 := floor_step_pos hσ1 (i - ip) hki
    have hF1 : (1 : ℚ) ≤ (⌊σ * ((i - ip : Nat) : ℚ) + 1 / 2⌋ : ℚ) := by exact_mod_cast h1
    push_cast
    linarith [hzp60, hF1]
  · have hupper : σ * ((j - ip : Nat) : ℚ) ≤ ((zq - zp : ℤ) : ℚ) - 1 := by
      have hkj : ((j - ip : Nat) : ℚ) ≤ ((iq : ℚ) - (ip : ℚ)) - 1 := by
        have h1 : (j - ip : Nat) + ip + 1 ≤ iq := by omega
        have h2 : ((j - ip : Nat) : ℚ) + (ip : ℚ) + 1 ≤ (iq : ℚ) := by exact_mod_cast h1
        linarith
      have hmul : σ * ((j - ip : Nat) : ℚ) ≤ σ * (((iq : ℚ) - (ip : ℚ)) - 1) :=
        mul_le_mul_of_nonneg_left hkj (by linarith)
      have hexp : σ * (((iq : ℚ) - (ip : ℚ)) - 1)
          = σ * ((iq : ℚ) - (ip : ℚ)) - σ := by ring
      have hzz : ((zq - zp : ℤ) : ℚ) = 60 * (hq - hp) := by
        push_cast
        linarith [hzp60, hzq60]
      rw [hzz]
      linarith [hmul, hexp, hσiq, hσ1]
    have h2 := floor_step_lt hupper
    have hF2 : ((⌊σ * ((j - ip : Nat) : ℚ) + 1 / 2⌋ : ℤ) : ℚ) < ((zq - zp : ℤ) : ℚ) := by
      exact_mod_cast h2
    push_cast
    push_cast at hF2
    linarith [hzq60, hF2]
  · rcases Nat.lt_or_ge i j with hltij | hge
    · have h3 := floor_step_mono hσ1 (i - ip) (j - ip) (by omega)
      omega
    · have : i = j := le_antisymm hij hge
      subst this
      omega
  · intro hltij
    have h3 := floor_step_mono hσ1 (i - ip) (j - ip) (by omega)
    omega

/-- C3 witness: the classic `8am / no-time / 11am` morning bucket; the
middle record lands strictly between 8:00 and 11:00. -/
theorem c3_gap_interpolation_witness :
    ∃ ti tj : ℤ,
      minutesAt (interpolateTimes [eightRec, midRec, elevenRec] (6, 12)) 1 = some ti ∧
      minutesAt (interpolateTimes [eightRec, midRec, elevenRec] (6, 12)) 1 = some tj ∧
      60 * (8 : ℚ) < (ti : ℚ) ∧ (tj : ℚ) < 60 * (11 : ℚ) ∧ ti ≤ tj ∧ (1 < 1 → ti < tj) :=
  c3_gap_interpolation [eightRec, midRec, elevenRec] (6, 12) [] [] 0 2 8 11
    (by decide) (by decide) (by decide) 1 1 (by decide) (by decide) (by decide)

/-- C3 counterexample: equal anchors.  For `"8am - A\n- mid\n8am - B"` the
gap step is zero, so the middle record's time is exactly 8:00 — there is
no value strictly between two equal anchor hours, contradicting the
claim's "for every pair of anchor values, including equal or out-of-order
anchors". -/
theorem c3_counterexample :
    (parseSection (some (("8am - A\n- mid\n8am - B").toList)) Bucket.morning 0).map
      (fun b => b.timeStart) = [some ⟨8, 0⟩, some ⟨8, 0⟩, some ⟨8, 0⟩] ∧
    ¬ ((8 : ℚ) * 60 < (8 : ℚ) * 60) := by
  refine ⟨by decide, by decide⟩

/-! ### Helper lemmas: the bare-time scan never stops before `/digit` -/

theorem bareOK_lookahead {after : List Char} (hok : bareOK after = true) :
    ∀ d r2, after = '/' :: d :: r2 → d.isDigit = false := by
  intro d r2 hafter
  subst hafter
  simp only [bareOK, Bool.and_eq_true] at hok
  simpa using hok.1

theorem bareTryAt_ok {cs : List Char} {h m : Nat} {after : List Char}
    (hf : bareTryAt cs = some (h, m, after)) : bareOK after = true := by
  unfold bareTryAt at hf
  repeat' split at hf
  all_goals simp_all

theorem bareFind_ok (pw : Bool) (cs : List Char) {h m : Nat} {after : List Char} :
    bareFind pw cs = some (h, m, after) → bareOK after = true := by
  induction cs generalizing pw with
  | nil => intro hf; simp [bareFind] at hf
  | cons c rest ih =>
    intro hf
    unfold bareFind at hf
    split at hf
    · next v heq =>
      injection hf with hf
      subst hf
      split at heq
      · exact bareTryAt_ok heq
      · exact absurd heq (by simp)
    · exact ih _ hf

/-- C4 (amended): the bare-time scan never accepts a token immediately
followed by `/digit` (so the numerator of a fraction such as `4/10` never
resolves as the hour); on the line `"- rated it 4/10"` the denominator
`10` is read as a bare time, giving 10:00 in the morning bucket (inside
its 6–12 range) and 22:00 in the night bucket (inside its 18–23 range),
but also 22:00 in the afternoon bucket, which lies outside the afternoon
range 12–18 — and none of the three is hour 4 (or its PM image 16). -/
theorem c4_fraction_exclusion (cs : List Char) (h m : Nat) (after : List Char)
    (hbare : bareFind false cs = some (h, m, after)) :
    (∀ d r2, after = '/' :: d :: r2 → d.isDigit = false) ∧
    (parseSection (some (("- rated it 4/10").toList)) Bucket.morning 0).map
      (fun b => b.timeStart) = [some ⟨10, 0⟩] ∧
    (parseSection (some (("- rated it 4/10").toList)) Bucket.afternoon 0).map
      (fun b => b.timeStart) = [some ⟨22, 0⟩] ∧
    (parseSection (some (("- rated it 4/10").toList)) Bucket.night 0).map
      (fun b => b.timeStart) = [some ⟨22, 0⟩] ∧
    ((4 : Int) ≠ 10 ∧ (16 : Int) ≠ 10 ∧ (4 : Int) ≠ 22 ∧ (16 : Int) ≠ 22) ∧
    ((SECTION_RANGES Bucket.morning).1 ≤ 10 ∧ (10 : Int) < (SECTION_RANGES Bucket.morning).2) ∧
    ((SECTION_RANGES Bucket.night).1 ≤ 22 ∧ (22 : Int) < (SECTION_RANGES Bucket.night).2) ∧
    ¬ ((SECTION_RANGES Bucket.afternoon).1 ≤ 22 ∧ (22 : Int) < (SECTION_RANGES Bucket.afternoon).2) :=
  ⟨bareOK_lookahead (bareFind_ok false cs hbare), by decide, by decide, by decide,
   by decide, by decide, by decide, by decide⟩

/-- C4 witness: on `"rated it 4/10"` the bare scan matches `10` (with
nothing after it), not the numerator `4`. -/
theorem c4_fraction_exclusion_witness :
    (∀ d r2, ([] : List Char) = '/' :: d :: r2 → d.isDigit = false) ∧
    (parseSection (some (("- rated it 4/10").toList)) Bucket.morning 0).map
      (fun b => b.timeStart) = [some ⟨10, 0⟩] ∧
    (parseSection (some (("- rated it 4/10").toList)) Bucket.afternoon 0).map
      (fun b => b.timeStart) = [some ⟨22, 0⟩] ∧
    (parseSection (some (("- rated it 4/10").toList)) Bucket.night 0).map
      (fun b => b.timeStart) = [some ⟨22, 0⟩] ∧
    ((4 : Int) ≠ 10 ∧ (16 : Int) ≠ 10 ∧ (4 : Int) ≠ 22 ∧ (16 : Int) ≠ 22) ∧
    ((SECTION_RANGES Bucket.morning).1 ≤ 10 ∧ (10 : Int) < (SECTION_RANGES Bucket.morning).2) ∧
    ((SECTION_RANGES Bucket.night).1 ≤ 22 ∧ (22 : Int) < (SECTION_RANGES Bucket.night).2) ∧
    ¬ ((SECTION_RANGES Bucket.afternoon).1 ≤ 22 ∧ (22 : Int) < (SECTION_RANGES Bucket.afternoon).2) :=
  c4_fraction_exclusion (("rated it 4/10").toList) 10 0 [] (by decide)

/-- C4 counterexample: in the afternoon bucket the line
`"- rated it 4/10"` resolves to 22:00 (the denominator `10` PM-adjusted),
which is outside the afternoon bucket's normal clock range `[12,18)`. -/
theorem c4_counterexample :
    (parseSection (some (("- rated it 4/10").toList)) Bucket.afternoon 0).map
      (fun b => b.timeStart) = [some ⟨22, 0⟩] ∧
    ¬ ((SECTION_RANGES Bucket.afternoon).1 ≤ 22
        ∧ (22 : Int) < (SECTION_RANGES Bucket.afternoon).2) := by
  refine ⟨by decide, by decide⟩

/-! ### Helper lemmas: character classes for the time grammar -/

theorem digit_toLower {c : Char} (h : c.isDigit = true) : c.toLower = c := by
  unfold Char.toLower
  have h1 : c.val ≤ 57 := by
    simp only [Char.isDigit, Bool.and_eq_true, decide_eq_true_eq] at h
    exact h.2
  rw [if_neg]
  intro hc
  have h2 : 65 ≤ Char.toNat c := hc.1
  have h3 : Char.toNat c ≤ 57 := by
    unfold Char.toNat
    exact_mod_cast h1
  omega

theorem merHead_not_digit {c : Char} (h : c.toLower = 'a' ∨ c.toLower = 'p') :
    c.isDigit = false := by
  by_contra h'
  have hd : c.isDigit = true := by simpa using h'
  have he := digit_toLower hd
  rcases h with h | h <;> rw [he] at h <;> subst h <;> exact absurd hd (by decide)

theorem merHead_not_space {c : Char} (h : c.toLower = 'a' ∨ c.toLower = 'p') :
    jsSpace c = false := by
  by_contra h'
  have hs : jsSpace c = true := by simpa using h'
  simp only [jsSpace, Bool.or_eq_true, decide_eq_true_eq] at hs
  rcases hs with ((((rfl | rfl) | rfl) | rfl) | rfl) | rfl <;>
    rcases h with h | h <;> exact absurd h (by decide)

theorem merHead_ne_colon {c : Char} (h : c.toLower = 'a' ∨ c.toLower = 'p') : c ≠ ':' := by
  intro he
  rw [he] at h
  rcases h with h | h <;> exact absurd h (by decide)

theorem space_ne_colon {c : Char} (h : jsSpace c = true) : c ≠ ':' := by
  intro he
  rw [he] at h
  exact absurd h (by decide)

theorem space_not_digit {c : Char} (h : jsSpace c = true) : c.isDigit = false := by
  simp only [jsSpace, Bool.or_eq_true, decide_eq_true_eq] at h
  rcases h with ((((rfl | rfl) | rfl) | rfl) | rfl) | rfl <;> decide

theorem dropWhile_all_append {p : Char → Bool} {sp rest : List Char}
    (hsp : ∀ c ∈ sp, p c = true) :
    (sp ++ rest).dropWhile p = rest.dropWhile p := by
  induction sp with
  | nil => rfl
  | cons c t ih =>
    have hc := hsp c (List.mem_cons_self c t)
    simp only [List.cons_append, List.dropWhile_cons, hc, if_true]
    exact ih (fun x hx => hsp x (List.mem_cons_of_mem c hx))

/-! ### Helper lemmas: the grammar readers -/

theorem readDigits12_append {ds rest : List Char} {v : Nat} (hds : DigitRun ds v)
    (hrest : ∀ c r, rest = c :: r → c.isDigit = false) :
    readDigits12 (ds ++ rest) = some (ds, rest) := by
  obtain ⟨hlen, hdig, _⟩ := hds
  rcases ds with _ | ⟨a, _ | ⟨b, _ | ⟨x, t⟩⟩⟩
  · simp at hlen
  · have ha : a.isDigit = true := hdig a (by simp)
    cases rest with
    | nil => simp [readDigits12, ha]
    | cons c r =>
      have hc := hrest c r rfl
      simp [readDigits12, ha, hc]
  · have ha : a.isDigit = true := hdig a (by simp)
    have hb : b.isDigit = true := hdig b (by simp)
    simp [readDigits12, ha, hb]
  · simp at hlen

theorem readDigits12_some {cs ds rest : List Char}
    (h : readDigits12 cs = some (ds, rest)) :
    cs = ds ++ rest ∧ DigitRun ds (digitsVal ds) := by
  rcases cs with _ | ⟨a, _ | ⟨b, r⟩⟩
  · simp [readDigits12] at h
  · simp only [readDigits12] at h
    split at h
    · next ha =>
      simp only [Option.some.injEq, Prod.mk.injEq] at h
      obtain ⟨h1, h2⟩ := h
      subst h1
      subst h2
      exact ⟨rfl, Or.inl rfl, by simpa using ha, rfl⟩
    · simp at h
  · simp only [readDigits12] at h
    split at h
    · next ha =>
      split at h
      · next hb =>
        simp only [Option.some.injEq, Prod.mk.injEq] at h
        obtain ⟨h1, h2⟩ := h
        subst h1
        subst h2
        refine ⟨rfl, Or.inr rfl, ?_, rfl⟩
        intro c hc
        rcases List.mem_cons.mp hc with rfl | hc2
        · exact ha
        · rcases List.mem_cons.mp hc2 with rfl | hc3
          · exact hb
          · simp at hc3
      · next hb =>
        simp only [Option.some.injEq, Prod.mk.injEq] at h
        obtain ⟨h1, h2⟩ := h
        subst h1
        subst h2
        exact ⟨rfl, Or.inl rfl, by simpa using ha, rfl⟩
    · simp at h

theorem readColonMM_short1 (c : Char) : readColonMM [c] = (none, [c]) := by
  unfold readColonMM
  split
  · next heq => simp at heq
  · rfl

theorem readColonMM_short2 (c x : Char) : readColonMM [c, x] = (none, [c, x]) := by
  unfold readColonMM
  split
  · next heq => simp at heq
  · rfl

theorem readColonMM_no_colon {cs : List Char} (h : ∀ c r, cs = c :: r → c ≠ ':') :
    readColonMM cs = (none, cs) := by
  rcases cs with _ | ⟨c, rest⟩
  · rfl
  · have hc : c ≠ ':' := h c rest rfl
    unfold readColonMM
    split
    · next heq =>
      injection heq with h1 _
      exact absurd h1 hc
    · rfl

theorem readColonMM_colon {a b : Char} {r : List Char}
    (ha : a.isDigit = true) (hb : b.isDigit = true) :
    readColonMM (':' :: a :: b :: r) = (some [':', a, b], r) := by
  simp [readColonMM, ha, hb]

theorem readColonMM_inv (cs : List Char) :
    ((readColonMM cs).1 = none ∧ (readColonMM cs).2 = cs) ∨
    (∃ a b r, cs = ':' :: a :: b :: r ∧ a.isDigit = true ∧ b.isDigit = true ∧
      (readColonMM cs).1 = some [':', a, b] ∧ (readColonMM cs).2 = r) := by
  rcases cs with _ | ⟨c, _ | ⟨x, _ | ⟨y, r⟩⟩⟩
  · exact Or.inl ⟨rfl, rfl⟩
  · rw [readColonMM_short1]
    exact Or.inl ⟨rfl, rfl⟩
  · rw [readColonMM_short2]
    exact Or.inl ⟨rfl, rfl⟩
  · by_cases hc : c = ':'
    · subst hc
      by_cases hx : x.isDigit = true
      · by_cases hy : y.isDigit = true
        · right
          exact ⟨x, y, r, rfl, hx, hy, by simp [readColonMM, hx, hy], by simp [readColonMM, hx, hy]⟩
        · have hy' : y.isDigit = false := by simpa using hy
          left
          constructor <;> simp [readColonMM, hy']
      · have hx' : x.isDigit = false := by simpa using hx
        left
        constructor <;> simp [readColonMM, hx']
    · have hno : ∀ c' r', c :: x :: y :: r = c' :: r' → c' ≠ ':' := by
        intro c' r' he
        injection he with h1 _
        rw [← h1]
        exact hc
      rw [readColonMM_no_colon hno]
      exact Or.inl ⟨rfl, rfl⟩

theorem readMer_mer {m1 m2 : Char} {r : List Char} {pm : Bool} (h : MerForm m1 m2 pm) :
    readMer (m1 :: m2 :: r) = some (pm, [m1, m2], r) := by
  obtain ⟨hm2, hcase⟩ := h
  rcases hcase with ⟨ha, rfl⟩ | ⟨hp, rfl⟩
  · simp [readMer, hm2, ha]
  · have hna : ¬ m1.toLower = 'a' := by rw [hp]; decide
    simp [readMer, hm2, hna, hp]

theorem readMer_some {cs mer r : List Char} {pm : Bool}
    (h : readMer cs = some (pm, mer, r)) :
    ∃ m1 m2, cs = m1 :: m2 :: r ∧ mer = [m1, m2] ∧ MerForm m1 m2 pm := by
  rcases cs with _ | ⟨x, _ | ⟨y, t⟩⟩
  · simp [readMer] at h
  · simp [readMer] at h
  · simp only [readMer] at h
    split at h
    · next hm =>
      split at h
      · next hax =>
        simp only [Option.some.injEq, Prod.mk.injEq] at h
        obtain ⟨h1, h2, h3⟩ := h
        subst h1
        subst h2
        subst h3
        exact ⟨x, y, rfl, rfl, hm, Or.inl ⟨hax, rfl⟩⟩
      · split at h
        · next hpx =>
          simp only [Option.some.injEq, Prod.mk.injEq] at h
          obtain ⟨h1, h2, h3⟩ := h
          subst h1
          subst h2
          subst h3
          exact ⟨x, y, rfl, rfl, hm, Or.inr ⟨hpx, rfl⟩⟩
        · simp at h
    · simp at h

/-! ### Helper lemmas: soundness of the time-string grammar -/

theorem if_bounds12 (H MM : Nat) (pm : Bool) :
    (if 1 ≤ H && H ≤ 12 && MM ≤ 59 then some (map12 H MM pm) else none)
      = if 1 ≤ H ∧ H ≤ 12 ∧ MM ≤ 59 then some (map12 H MM pm) else none := by
  by_cases hc : 1 ≤ H ∧ H ≤ 12 ∧ MM ≤ 59
  · rw [if_pos hc, if_pos]
    simp [hc.1, hc.2.1, hc.2.2]
  · rw [if_neg hc, if_neg]
    simp only [Bool.and_eq_true, decide_eq_true_eq]
    tauto

theorem if_bounds24 (H MM : Nat) :
    (if H ≤ 23 && MM ≤ 59 then (some ⟨(H : Int), (MM : Int)⟩ : Option TimeOfDay) else none)
      = if H ≤ 23 ∧ MM ≤ 59 then some ⟨(H : Int), (MM : Int)⟩ else none := by
  by_cases hc : H ≤ 23 ∧ MM ≤ 59
  · rw [if_pos hc, if_pos]
    simp [hc.1, hc.2]
  · rw [if_neg hc, if_neg]
    simp only [Bool.and_eq_true, decide_eq_true_eq]
    tauto

theorem merForm_head {m1 m2 : Char} {pm : Bool} (hmer : MerForm m1 m2 pm) :
    m1.toLower = 'a' ∨ m1.toLower = 'p' := by
  rcases hmer.2 with ⟨h, _⟩ | ⟨h, _⟩
  · exact Or.inl h
  · exact Or.inr h

theorem parse12_sound {hd mins sp : List Char} {m1 m2 : Char} {H MM : Nat} {pm : Bool}
    (hds : DigitRun hd H) (hmins : MinutesForm mins MM)
    (hsp : ∀ c ∈ sp, jsSpace c = true) (hmer : MerForm m1 m2 pm) :
    parse12 (hd ++ mins ++ sp ++ [m1, m2])
      = if 1 ≤ H ∧ H ≤ 12 ∧ MM ≤ 59 then some (map12 H MM pm) else none := by
  have hm1 := merForm_head hmer
  have hHval : H = digitsVal hd := hds.2.2
  have hdropmer : (sp ++ [m1, m2]).dropWhile jsSpace = [m1, m2] := by
    rw [dropWhile_all_append hsp]
    simp [List.dropWhile_cons, merHead_not_space hm1]
  rcases hmins with ⟨hm0, hMM0⟩ | ⟨a, b, hm0, ha, hb, hMMab⟩
  · subst hm0
    subst hMM0
    have hrest : ∀ c r, sp ++ [m1, m2] = c :: r → c.isDigit = false := by
      intro c r he
      rcases sp with _ | ⟨s0, st⟩
      · simp only [List.nil_append] at he
        injection he with h1 _
        rw [← h1]
        exact merHead_not_digit hm1
      · simp only [List.cons_append] at he
        injection he with h1 _
        rw [← h1]
        exact space_not_digit (hsp s0 (by simp))
    have hno : ∀ c r, sp ++ [m1, m2] = c :: r → c ≠ ':' := by
      intro c r he
      rcases sp with _ | ⟨s0, st⟩
      · simp only [List.nil_append] at he
        injection he with h1 _
        rw [← h1]
        exact merHead_ne_colon hm1
      · simp only [List.cons_append] at he
        injection he with h1 _
        rw [← h1]
        exact space_ne_colon (hsp s0 (by simp))
    have hstep : hd ++ [] ++ sp ++ [m1, m2] = hd ++ (sp ++ [m1, m2]) := by
      simp
    rw [hstep]
    simp only [parse12, readDigits12_append hds hrest, readColonMM_no_colon hno,
      hdropmer, readMer_mer hmer, List.isEmpty_nil, if_true, mmValOf]
    rw [← hHval]
    exact if_bounds12 H 0 pm
  · subst hm0
    subst hMMab
    have hrest : ∀ c r, [':', a, b] ++ sp ++ [m1, m2] = c :: r → c.isDigit = false := by
      intro c r he
      simp only [List.cons_append] at he
      injection he with h1 _
      rw [← h1]
      decide
    have hstep : hd ++ [':', a, b] ++ sp ++ [m1, m2]
        = hd ++ (':' :: a :: b :: (sp ++ [m1, m2])) := by
      simp
    have hrest' : ∀ c r, ':' :: a :: b :: (sp ++ [m1, m2]) = c :: r → c.isDigit = false := by
      intro c r he
      injection he with h1 _
      rw [← h1]
      decide
    rw [hstep]
    simp only [parse12, readDigits12_append hds hrest', readColonMM_colon ha hb,
      hdropmer, readMer_mer hmer, List.isEmpty_nil, if_true, mmValOf]
    rw [← hHval]
    exact if_bounds12 H (10 * dval a + dval b) pm

theorem parse24_none_of_12 {hd mins sp : List Char} {m1 m2 : Char} {H MM : Nat} {pm : Bool}
    (hds : DigitRun hd H) (hmins : MinutesForm mins MM)
    (hsp : ∀ c ∈ sp, jsSpace c = true) (hmer : MerForm m1 m2 pm) :
    parse24 (hd ++ mins ++ sp ++ [m1, m2]) = none := by
  have hm1 := merForm_head hmer
  rcases hmins with ⟨hm0, _⟩ | ⟨a, b, hm0, ha, hb, _⟩
  · subst hm0
    have hrest : ∀ c r, sp ++ [m1, m2] = c :: r → c.isDigit = false := by
      intro c r he
      rcases sp with _ | ⟨s0, st⟩
      · simp only [List.nil_append] at he
        injection he with h1 _
        rw [← h1]
        exact merHead_not_digit hm1
      · simp only [List.cons_append] at he
        injection he with h1 _
        rw [← h1]
        exact space_not_digit (hsp s0 (by simp))
    have hno : ∀ c r, sp ++ [m1, m2] = c :: r → c ≠ ':' := by
      intro c r he
      rcases sp with _ | ⟨s0, st⟩
      · simp only [List.nil_append] at he
        injection he with h1 _
        rw [← h1]
        exact merHead_ne_colon hm1
      · simp only [List.cons_append] at he
        injection he with h1 _
        rw [← h1]
        exact space_ne_colon (hsp s0 (by simp))
    have hstep : hd ++ [] ++ sp ++ [m1, m2] = hd ++ (sp ++ [m1, m2]) := by
      simp
    rw [hstep]
    simp only [parse24, readDigits12_append hds hrest, readColonMM_no_colon hno]
  · subst hm0
    have hrest' : ∀ c r, ':' :: a :: b :: (sp ++ [m1, m2]) = c :: r → c.isDigit = false := by
      intro c r he
      injection he with h1 _
      rw [← h1]
      decide
    have hstep : hd ++ [':', a, b] ++ sp ++ [m1, m2]
        = hd ++ (':' :: a :: b :: (sp ++ [m1, m2])) := by
      simp
    have hne : (sp ++ [m1, m2]).isEmpty = false := by
      cases sp <;> rfl
    rw [hstep]
    simp only [parse24, readDigits12_append hds hrest', readColonMM_colon ha hb, hne]
    rfl

theorem parse24_sound {hd : List Char} {a b : Char} {H MM : Nat}
    (hds : DigitRun hd H) (ha : a.isDigit = true) (hb : b.isDigit = true)
    (hMM : MM = 10 * dval a + dval b) :
    parse24 (hd ++ [':', a, b])
      = if H ≤ 23 ∧ MM ≤ 59 then some ⟨(H : Int), (MM : Int)⟩ else none := by
  have hrest : ∀ c r, ([':', a, b] : List Char) = c :: r → c.isDigit = false := by
    intro c r he
    injection he with h1 _
    rw [← h1]
    decide
  have hHval : H = digitsVal hd := hds.2.2
  subst hMM
  simp only [parse24, readDigits12_append hds hrest, readColonMM_colon ha hb,
    List.isEmpty_nil, if_true, mmValOf]
  rw [← hHval]
  exact if_bounds24 H (10 * dval a + dval b)

theorem parse12_none_of_24 {hd : List Char} {a b : Char} {H : Nat}
    (hds : DigitRun hd H) (ha : a.isDigit = true) (hb : b.isDigit = true) :
    parse12 (hd ++ [':', a, b]) = none := by
  have hrest : ∀ c r, ([':', a, b] : List Char) = c :: r → c.isDigit = false := by
    intro c r he
    injection he with h1 _
    rw [← h1]
    decide
  have hcolon : readColonMM [':', a, b] = (some [':', a, b], []) := readColonMM_colon ha hb
  simp only [parse12, readDigits12_append hds hrest, hcolon, List.dropWhile_nil, readMer]

/-! ### Helper lemmas: completeness of the time-string grammar -/

theorem parse24_some {cs : List Char} {t : TimeOfDay} (h : parse24 cs = some t) :
    ∃ H MM, Form24 cs H MM ∧ H ≤ 23 ∧ MM ≤ 59 ∧ t = ⟨(H : Int), (MM : Int)⟩ := by
  unfold parse24 at h
  split at h
  · next ds r hrd =>
    obtain ⟨hcs, hds⟩ := readDigits12_some hrd
    split at h
    · next mm rest hmm =>
      rcases readColonMM_inv r with ⟨hfst, _⟩ | ⟨a, b, r2, hreq, ha, hb, hfst, hsnd⟩
      · rw [hmm] at hfst
        simp at hfst
      · rw [hmm] at hfst hsnd
        simp only [Option.some.injEq] at hfst
        split at h
        · next hemp =>
          have hrest0 : rest = [] := by
            cases rest
            · rfl
            · simp [List.isEmpty] at hemp
          simp only [] at h
          rw [hfst] at h
          simp only [mmValOf] at h
          split at h
          · next hbnd =>
            simp only [Bool.and_eq_true, decide_eq_true_eq] at hbnd
            injection h with ht
            have hr2 : r2 = [] := by rw [← hsnd, hrest0]
            refine ⟨digitsVal ds, 10 * dval a + dval b,
              ⟨ds, a, b, ?_, hds, ha, hb, rfl⟩, hbnd.1, hbnd.2, ht.symm⟩
            rw [hcs, hreq, hr2]
          · simp at h
        · simp at h
    · simp at h
  · simp at h

theorem parse12_some {cs : List Char} {t : TimeOfDay} (h : parse12 cs = some t) :
    ∃ H MM pm, Form12 cs H MM pm ∧ 1 ≤ H ∧ H ≤ 12 ∧ MM ≤ 59 ∧ t = map12 H MM pm := by
  unfold parse12 at h
  split at h
  · next ds r1 hrd =>
    obtain ⟨hcs, hds⟩ := readDigits12_some hrd
    simp only [] at h
    split at h
    · next pm mer r4 hmrd =>
      obtain ⟨m1, m2, hr3, hmereq, hmf⟩ := readMer_some hmrd
      split at h
      · next hemp =>
        have hr4 : r4 = [] := by
          cases r4
          · rfl
          · simp [List.isEmpty] at hemp
        subst hr4
        split at h
        · next hbnd =>
          injection h with ht
          have hspall : ∀ c ∈ (readColonMM r1).2.takeWhile jsSpace, jsSpace c = true :=
            fun c hc => List.mem_takeWhile_imp hc
          rcases readColonMM_inv r1 with ⟨hfst, hsnd⟩ | ⟨a, b, r2, hr1, ha, hb, hfst, hsnd⟩
          · rw [hfst] at hbnd ht
            simp only [mmValOf, Bool.and_eq_true, decide_eq_true_eq] at hbnd ht
            have hto : r1 = r1.takeWhile jsSpace ++ [m1, m2] := by
              conv_lhs => rw [← List.takeWhile_append_dropWhile (p := jsSpace) (l := r1)]
              rw [hsnd] at hr3
              rw [hr3]
            refine ⟨digitsVal ds, 0, pm, ⟨ds, [], r1.takeWhile jsSpace, m1, m2, ?_, hds,
              Or.inl ⟨rfl, rfl⟩, ?_, hmf⟩, hbnd.1.1, hbnd.1.2, hbnd.2, ht.symm⟩
            · conv_lhs => rw [hcs, hto]
              simp
            · rw [hsnd] at hspall
              exact hspall
          · rw [hfst] at hbnd ht
            simp only [mmValOf, Bool.and_eq_true, decide_eq_true_eq] at hbnd ht
            have hto : r2 = r2.takeWhile jsSpace ++ [m1, m2] := by
              conv_lhs => rw [← List.takeWhile_append_dropWhile (p := jsSpace) (l := r2)]
              rw [hsnd] at hr3
              rw [hr3]
            refine ⟨digitsVal ds, 10 * dval a + dval b, pm,
              ⟨ds, [':', a, b], r2.takeWhile jsSpace, m1, m2, ?_, hds,
                Or.inr ⟨a, b, rfl, ha, hb, rfl⟩, ?_, hmf⟩,
              hbnd.1.1, hbnd.1.2, hbnd.2, ht.symm⟩
            · conv_lhs => rw [hcs, hr1, hto]
              simp
            · rw [hsnd] at hspall
              exact hspall
        · simp at h
      · simp at h
    · simp at h
  · simp at h

/-- C5: the time-string parser realises exactly the spec's grammar (§4.2):
a 12-hour string `H[:MM](am|pm)` (case-insensitive, optional whitespace
before the meridiem) parses iff `1 ≤ H ≤ 12` and `MM ≤ 59`, with pm
mapping 12→12 and otherwise +12 and am mapping 12→0 and otherwise
unchanged; a 24-hour string `HH:MM` parses iff `HH ≤ 23` and `MM ≤ 59`;
any string parsed at all is of one of the two forms (everything else
yields no match, never an error); and the four examples `"12pm"`,
`"12am"`, `"14:00"`, `"2pm"` resolve to 12:00, 0:00, 14:00, 14:00. -/
theorem c5_time_grammar :
    (∀ cs H MM pm, Form12 cs H MM pm →
      parseTimeString cs =
        if 1 ≤ H ∧ H ≤ 12 ∧ MM ≤ 59 then some (map12 H MM pm) else none) ∧
    (∀ cs H MM, Form24 cs H MM →
      parseTimeString cs =
        if H ≤ 23 ∧ MM ≤ 59 then some ⟨(H : Int), (MM : Int)⟩ else none) ∧
    (∀ cs t, parseTimeString cs = some t →
      (∃ H MM pm, Form12 cs H MM pm) ∨ (∃ H MM, Form24 cs H MM)) ∧
    parseTimeString ("12pm".toList) = some ⟨12, 0⟩ ∧
    parseTimeString ("12am".toList) = some ⟨0, 0⟩ ∧
    parseTimeString ("14:00".toList) = some ⟨14, 0⟩ ∧
    parseTimeString ("2pm".toList) = some ⟨14, 0⟩ := by
  refine ⟨?_, ?_, ?_, by decide, by decide, by decide, by decide⟩
  · intro cs H MM pm hf
    obtain ⟨hd, mins, sp, m1, m2, hcseq, hds, hmins, hsp, hmer⟩ := hf
    subst hcseq
    unfold parseTimeString
    rw [parse24_none_of_12 hds hmins hsp hmer]
    exact parse12_sound hds hmins hsp hmer
  · intro cs H MM hf
    obtain ⟨hd, a, b, hcseq, hds, ha, hb, hMM⟩ := hf
    subst hcseq
    unfold parseTimeString
    rw [parse24_sound hds ha hb hMM]
    by_cases hc : H ≤ 23 ∧ MM ≤ 59
    · rw [if_pos hc]
    · rw [if_neg hc]
      exact parse12_none_of_24 hds ha hb
  · intro cs t h
    unfold parseTimeString at h
    split at h
    · next t24 h24 =>
      obtain ⟨H, MM, hform, _⟩ := parse24_some h24
      exact Or.inr ⟨H, MM, hform⟩
    · next h24 =>
      obtain ⟨H, MM, pm, hform, _⟩ := parse12_some h
      exact Or.inl ⟨H, MM, pm, hform⟩

end JournalApp
